import Mathlib

/-!
# Verification of the django-sourcery event-sourcing core

This file gives a shallow embedding of `src/django_sourcery/models.py` and
`src/django_sourcery/helpers.py` and proves/refutes the frozen claims about it.

Modelling conventions:
* Django model instances become Lean structures; `PositiveIntegerField`,
  `PositiveBigIntegerField` and timestamps become `Nat` (the store assigns
  timestamps from a monotonic clock, as the spec's store interface states).
* A concrete `Aggregate` subclass (its field defaults, its `__qualname__`, and
  its nested event dataclasses with their `version` field, `apply` method and
  qualnames) is abstracted as an `AggClass` record.  JSON serialization
  round-trips model fields, so a row's `state` column is modelled as the
  serialized value itself (`RecState`): `asdict(event)` for EVENT rows,
  `serialize("json", [self])` for SNAPSHOT rows.  The `type` column of an
  `EventRecord` is determined by which kind of payload the row stores, exactly
  as at both `objects.create` sites in the source.
* Exceptions become `Except` errors.  Python truthiness of the `version`
  argument (`if version:`) and Django's `ValueError` on a `__lte=None` lookup
  are modelled faithfully.
* `connections[...].in_atomic_block` is an ambient boolean passed to the
  operations that consult it; `Aggregate.trigger_event` is wrapped in
  `require_transaction`, while `Aggregate.snapshot` is not, so the latter takes
  the ambient flag but never reads it, exactly like the undecorated method.
-/

namespace Sourcery

/-- An in-memory aggregate instance: `id`, the `version` field declared on the
abstract `Aggregate` base model (default 0), and the concrete subclass's own
model fields (`payload`, e.g. `Order.total`). -/
structure Aggregate (σ : Type) where
  id : Nat
  version : Nat
  payload : σ
deriving DecidableEq, Repr

/-- The serialized `state` column of an `EventRecord` row: either
`asdict(event)` for an EVENT row or the serialized aggregate for a SNAPSHOT
row.  Serialization round-trips all fields, so we store the value itself. -/
inductive RecState (σ ε : Type) where
  | ev (e : ε)
  | snap (a : Aggregate σ)
deriving DecidableEq, Repr

/-- One row of the `EventRecord` table (field names as in the source).  The
`type` column (`EVENT`/`SNAPSHOT`) is determined by the payload kind, as at
both `objects.create` call sites. -/
structure EventRecord (σ ε : Type) where
  name : String
  object_id : Nat
  applied_to_version : Nat
  state : RecState σ ε
  timestamp : Nat
deriving DecidableEq, Repr

/-- `type == EventRecord.Type.EVENT` for this row. -/
def recIsEvent (r : EventRecord σ ε) : Bool :=
  match r.state with
  | .ev _ => true
  | .snap _ => false

/-- `type == EventRecord.Type.SNAPSHOT` for this row. -/
def recIsSnap (r : EventRecord σ ε) : Bool :=
  match r.state with
  | .ev _ => false
  | .snap _ => true

/-- Everything the generic code reads off a concrete `Aggregate` subclass:
the subclass's field defaults (used by `cls(id=object_id)`), its
`__qualname__`, and its event dataclasses' `version` field, `apply` method and
`__qualname__`. -/
structure AggClass (σ ε : Type) where
  defaultPayload : σ
  clsName : String
  evVersion : ε → Nat
  evApply : ε → Aggregate σ → Aggregate σ
  evName : ε → String

variable {σ ε : Type}

/-- `Aggregate.apply`: `event.apply(self); self.version += 1`. -/
def Aggregate.apply (C : AggClass σ ε) (a : Aggregate σ) (e : ε) : Aggregate σ :=
  let a' := C.evApply e a
  { a' with version := a'.version + 1 }

/-- `name__startswith=prefix` (string prefix test, computed on the character
lists so that it evaluates by `rfl`/`decide`). -/
def strStarts (p s : String) : Bool :=
  p.toList.isPrefixOf s.toList

/-- The `EventRecord` table plus the store's write clock (the store assigns
`timestamp` values, monotonic per row insertion). -/
structure Store (σ ε : Type) where
  rows : List (EventRecord σ ε)
  clock : Nat
deriving DecidableEq, Repr

/-- A database integrity error (unique-constraint violation). -/
inductive DBErr where
  | integrity
deriving DecidableEq, Repr

/-- `EventRecord.objects.create(...)`: the store stamps the row with the
current clock and enforces the table's one constraint
(`UNIQUE(object_id, applied_to_version) WHERE type = EVENT`,
`record_unique_applied_to_version` in `EventRecord.Meta`). -/
def objects_create (st : Store σ ε) (name : String) (object_id applied_to_version : Nat)
    (state : RecState σ ε) : Except DBErr (Store σ ε) :=
  let r : EventRecord σ ε :=
    { name := name, object_id := object_id, applied_to_version := applied_to_version,
      state := state, timestamp := st.clock }
  if recIsEvent r && st.rows.any (fun r' =>
      recIsEvent r' && (r'.object_id == r.object_id)
        && (r'.applied_to_version == r.applied_to_version)) then
    .error .integrity
  else
    .ok { rows := st.rows ++ [r], clock := st.clock + 1 }

/-- Errors escaping `trigger_event`: `TransactionRequiredError` from the
`require_transaction` decorator, the `ValueError("Version mismatch: ...")`
raised by the guard, or a database integrity error from `objects.create`. -/
inductive TxErr where
  | transactionRequired
  | versionConflict
  | integrity
deriving DecidableEq, Repr

/-- `Aggregate.trigger_event` (wrapped in `@require_transaction`): check the
ambient transaction flag, check `self.version != event.version`, append one
EVENT row recorded at the version being transitioned from, then
`self.apply(event)`.  The result carries the store and the in-memory aggregate
as they stand when the call returns or raises. -/
def trigger_event (C : AggClass σ ε) (inTx : Bool) (st : Store σ ε) (a : Aggregate σ)
    (e : ε) : Except TxErr Unit × Store σ ε × Aggregate σ :=
  if !inTx then
    (.error .transactionRequired, st, a)
  else if a.version != C.evVersion e then
    (.error .versionConflict, st, a)
  else
    match objects_create st (C.evName e) a.id a.version (.ev e) with
    | .error _ => (.error .integrity, st, a)
    | .ok st' => (.ok (), st', Aggregate.apply C a e)

/-- `Aggregate.snapshot`: append one SNAPSHOT row stamped with the aggregate's
current version and its full serialized state.  The method is *not* decorated
with `require_transaction`, so the ambient transaction flag is taken but never
consulted. -/
def snapshot (C : AggClass σ ε) (_inTx : Bool) (st : Store σ ε) (a : Aggregate σ) :
    Except DBErr (Store σ ε) :=
  objects_create st C.clsName a.id a.version (.snap a)

/-- Errors escaping `Aggregate.restore`: the explicit
`ValueError("Either version or timestamp need to be specified")` and Django's
`ValueError("Cannot use None as a query value")` for a `__lte=None` lookup. -/
inductive RestoreErr where
  | ambiguous
  | noneQuery
deriving DecidableEq, Repr

/-- Python truthiness of the optional `version` argument (`if version:`):
false for `None` and for `0`. -/
def truthy : Option Nat → Bool
  | some v => v != 0
  | none => false

/-- Filter of the snapshots queryset in `restore`:
`object_id=..., name__startswith=..., type=SNAPSHOT`. -/
def snapFilter (C : AggClass σ ε) (object_id : Nat) (r : EventRecord σ ε) : Bool :=
  (r.object_id == object_id) && strStarts C.clsName r.name && recIsSnap r

/-- Filter of the events queryset in `restore`:
`object_id=..., name__startswith=..., type=EVENT`. -/
def evFilter (C : AggClass σ ε) (object_id : Nat) (r : EventRecord σ ε) : Bool :=
  (r.object_id == object_id) && strStarts C.clsName r.name && recIsEvent r

/-- Boolean `≤` on the lexicographic pair keys used by `order_by`. -/
def lexLe (a b : Nat × Nat) : Bool :=
  (a.1 < b.1) || ((a.1 == b.1) && (a.2 ≤ b.2))

/-- Stable insertion into a key-sorted list. -/
def insKey (f : α → Nat × Nat) (x : α) : List α → List α
  | [] => [x]
  | y :: ys => if lexLe (f x) (f y) then x :: y :: ys else y :: insKey f x ys

/-- Stable insertion sort by a lexicographic pair key, modelling `order_by`. -/
def sortByKey (f : α → Nat × Nat) : List α → List α
  | [] => []
  | x :: xs => insKey f x (sortByKey f xs)

/-- `order_by("applied_to_version")`. -/
def sortByVersion (l : List (EventRecord σ ε)) : List (EventRecord σ ε) :=
  sortByKey (fun r => (r.applied_to_version, 0)) l

/-- `order_by("object_id", "applied_to_version")`. -/
def sortByIdVersion (l : List (EventRecord σ ε)) : List (EventRecord σ ε) :=
  sortByKey (fun r => (r.object_id, r.applied_to_version)) l

/-- The snapshots queryset of `restore` after its bound filter: base filter,
`order_by("applied_to_version")`, then `applied_to_version__lte=version` when
`version` is truthy, else `timestamp__lte=timestamp` (a `None` timestamp is
rejected by Django). -/
def snapshotQuery (C : AggClass σ ε) (rows : List (EventRecord σ ε)) (object_id : Nat)
    (version timestamp : Option Nat) : Except RestoreErr (List (EventRecord σ ε)) :=
  let base := sortByVersion (rows.filter (snapFilter C object_id))
  if truthy version then
    .ok (base.filter (fun r => r.applied_to_version ≤ version.getD 0))
  else
    match timestamp with
    | none => .error .noneQuery
    | some t => .ok (base.filter (fun r => r.timestamp ≤ t))

/-- The events queryset of `restore` after its bound filter (strict
`applied_to_version__lt=version` on the version side). -/
def eventQuery (C : AggClass σ ε) (rows : List (EventRecord σ ε)) (object_id : Nat)
    (version timestamp : Option Nat) : Except RestoreErr (List (EventRecord σ ε)) :=
  let base := sortByVersion (rows.filter (evFilter C object_id))
  if truthy version then
    .ok (base.filter (fun r => r.applied_to_version < version.getD 0))
  else
    match timestamp with
    | none => .error .noneQuery
    | some t => .ok (base.filter (fun r => r.timestamp ≤ t))

/-- `snapshots.first()`: the snapshot row `restore` deserializes into its
starting accumulator, if any. -/
def selectedSnapshot (C : AggClass σ ε) (rows : List (EventRecord σ ε)) (object_id : Nat)
    (version timestamp : Option Nat) : Except RestoreErr (Option (EventRecord σ ε)) :=
  (snapshotQuery C rows object_id version timestamp).map List.head?

/-- `cls._load_snapshot(snapshot)`: deserialize the stored aggregate (full
field restore).  The fallback branch is unreachable for rows selected through
the `type=SNAPSHOT` filter. -/
def load_snapshot (C : AggClass σ ε) (r : EventRecord σ ε) : Aggregate σ :=
  match r.state with
  | .snap a => a
  | .ev _ => { id := r.object_id, version := 0, payload := C.defaultPayload }

/-- One iteration of the replay loop in `restore`/`restore_many`:
`instance.apply(event_class(**event.state))`.  The fallback branch is
unreachable for rows selected through the `type=EVENT` filter. -/
def applyRow (C : AggClass σ ε) (a : Aggregate σ) (r : EventRecord σ ε) : Aggregate σ :=
  match r.state with
  | .ev e => Aggregate.apply C a e
  | .snap _ => a

/-- `cls(id=object_id)`: a bare aggregate with only the id set, the version at
its field default 0 and every other field at its default. -/
def defaultAgg (C : AggClass σ ε) (object_id : Nat) : Aggregate σ :=
  { id := object_id, version := 0, payload := C.defaultPayload }

/-- `Aggregate.restore(object_id=..., version=..., timestamp=...)`. -/
def restore (C : AggClass σ ε) (rows : List (EventRecord σ ε)) (object_id : Nat)
    (version timestamp : Option Nat) : Except RestoreErr (Aggregate σ) :=
  if version.isNone == timestamp.isNone then
    .error .ambiguous
  else
    match snapshotQuery C rows object_id version timestamp,
        eventQuery C rows object_id version timestamp with
    | .error err, _ => .error err
    | .ok _, .error err => .error err
    | .ok snaps, .ok events =>
      match snaps.head? with
      | some s =>
        let instanceA := load_snapshot C s
        let events' := events.filter (fun r => s.applied_to_version ≤ r.applied_to_version)
        .ok (events'.foldl (applyRow C) instanceA)
      | none =>
        .ok (events.foldl (applyRow C) (defaultAgg C object_id))

/-- Python-dict insertion: replace in place if the key exists, else append. -/
def dinsert (m : List (Nat × β)) (k : Nat) (v : β) : List (Nat × β) :=
  match m with
  | [] => [(k, v)]
  | (k', v') :: rest => if k' == k then (k, v) :: rest else (k', v') :: dinsert rest k v

/-- Python-dict lookup. -/
def dlookup (m : List (Nat × β)) (k : Nat) : Option β :=
  match m with
  | [] => none
  | (k', v') :: rest => if k' == k then some v' else dlookup rest k

/-- `itertools.groupby`: maximal runs of adjacent elements with equal key. -/
def chunkByKey (f : α → Nat) : List α → List (List α)
  | [] => []
  | x :: xs =>
    match chunkByKey f xs with
    | [] => [[x]]
    | [] :: gs => [x] :: [] :: gs
    | (y :: g) :: gs =>
      if f x == f y then (x :: y :: g) :: gs else [x] :: (y :: g) :: gs

/-- One iteration of the `for snapshot in snapshots:` loop of `restore_many`
(later row wins only on strictly greater timestamp). -/
def snapStep (m : List (Nat × Nat) × List (Nat × EventRecord σ ε))
    (s : EventRecord σ ε) : List (Nat × Nat) × List (Nat × EventRecord σ ε) :=
  match dlookup m.1 s.object_id with
  | some t0 =>
    if s.timestamp > t0 then
      (dinsert m.1 s.object_id s.timestamp, dinsert m.2 s.object_id s)
    else m
  | none => (dinsert m.1 s.object_id s.timestamp, dinsert m.2 s.object_id s)

/-- The `for snapshot in snapshots:` loop of `restore_many`, building
`timestamp_map` and `snapshot_map`. -/
def snapMaps (l : List (EventRecord σ ε)) :
    List (Nat × Nat) × List (Nat × EventRecord σ ε) :=
  l.foldl snapStep ([], [])

/-- The disjunctive `sub_query` of `restore_many`: for each input id, either
`object_id=id AND timestamp__gt=timestamp_map[id]` or plain `object_id=id`. -/
def subQuery (ids : List Nat) (tsm : List (Nat × Nat)) (r : EventRecord σ ε) : Bool :=
  ids.any (fun oid =>
    (r.object_id == oid) &&
      (match dlookup tsm oid with
       | some t0 => t0 < r.timestamp
       | none => true))

/-- The per-group body of the `groupby` loop in `restore_many`. -/
def groupStep (C : AggClass σ ε) (inst : List (Nat × Aggregate σ))
    (g : List (EventRecord σ ε)) : List (Nat × Aggregate σ) :=
  match g with
  | [] => inst
  | r :: _ =>
    let a0 := match dlookup inst r.object_id with
      | some a => a
      | none => defaultAgg C r.object_id
    dinsert inst r.object_id (g.foldl (applyRow C) a0)

/-- `Aggregate.restore_many(ids=..., timestamp=...)`. -/
def restore_many (C : AggClass σ ε) (rows : List (EventRecord σ ε)) (ids : List Nat)
    (timestamp : Nat) : List (Nat × Aggregate σ) :=
  if ids.isEmpty then []
  else
    let snapshots := rows.filter (fun r =>
      ids.contains r.object_id && strStarts C.clsName r.name
        && (r.timestamp ≤ timestamp) && recIsSnap r)
    let maps := snapMaps snapshots
    let all_events := sortByIdVersion (rows.filter (fun r =>
      subQuery ids maps.1 r && strStarts C.clsName r.name
        && (r.timestamp ≤ timestamp) && recIsEvent r))
    let instances := maps.2.map (fun p => (p.1, load_snapshot C p.2))
    (chunkByKey (fun r => r.object_id) all_events).foldl (groupStep C) instances

/-! ## A concrete aggregate class (the `Order` example from the test project),
used for witnesses and counterexamples. -/

/-- The two event dataclasses nested in `Order` (floats modelled as `Int`). -/
inductive OEv where
  | created (version : Nat) (total : Int)
  | payment (version : Nat) (amount : Int)
deriving DecidableEq, Repr

/-- The `Order` aggregate class: one `total` field, default-constructed at 0. -/
def OC : AggClass Int OEv where
  defaultPayload := 0
  clsName := "Order"
  evVersion := fun e => match e with
    | .created v _ => v
    | .payment v _ => v
  evApply := fun e a => match e with
    | .created _ t => { a with payload := t }
    | .payment _ m => { a with payload := a.payload - m }
  evName := fun e => match e with
    | .created _ _ => "Order.OrderCreated"
    | .payment _ _ => "Order.PaymentReceived"

/-! ## Infrastructure lemmas: sorting, filters, association lists -/

theorem insKey_perm (f : α → Nat × Nat) (x : α) (l : List α) :
    List.Perm (insKey f x l) (x :: l) := by
  induction l with
  | nil => exact List.Perm.refl _
  | cons y ys ih =>
    by_cases h : lexLe (f x) (f y)
    · simp [insKey, h]
    · simp only [insKey, h, if_false]
      exact ((ih.cons y).trans (List.Perm.swap x y ys))

theorem sortByKey_perm (f : α → Nat × Nat) (l : List α) :
    List.Perm (sortByKey f l) l := by
  induction l with
  | nil => exact List.Perm.refl _
  | cons x xs ih => exact (insKey_perm f x (sortByKey f xs)).trans (ih.cons x)

theorem lexLe_total (a b : Nat × Nat) : lexLe a b = true ∨ lexLe b a = true := by
  simp only [lexLe, Bool.or_eq_true, Bool.and_eq_true, decide_eq_true_eq, beq_iff_eq]
  omega

theorem lexLe_trans {a b c : Nat × Nat} (h₁ : lexLe a b = true) (h₂ : lexLe b c = true) :
    lexLe a c = true := by
  simp only [lexLe, Bool.or_eq_true, Bool.and_eq_true, decide_eq_true_eq, beq_iff_eq] at *
  omega

theorem insKey_pairwise (f : α → Nat × Nat) (x : α) (l : List α)
    (h : l.Pairwise (fun a b => lexLe (f a) (f b) = true)) :
    (insKey f x l).Pairwise (fun a b => lexLe (f a) (f b) = true) := by
  induction l with
  | nil => simp [insKey]
  | cons y ys ih =>
    rcases List.pairwise_cons.mp h with ⟨hy, hys⟩
    by_cases hxy : lexLe (f x) (f y)
    · simp only [insKey, hxy, if_true]
      refine List.pairwise_cons.mpr ⟨?_, h⟩
      intro z hz
      rcases List.mem_cons.mp hz with rfl | hz'
      · exact hxy
      · exact lexLe_trans hxy (hy z hz')
    · simp only [insKey, hxy, if_false]
      refine List.pairwise_cons.mpr ⟨?_, ih hys⟩
      intro z hz
      have hz' := (insKey_perm f x ys).mem_iff.mp hz
      rcases List.mem_cons.mp hz' with hzx | hz''
      · rw [hzx]
        rcases lexLe_total (f x) (f y) with h' | h'
        · exact absurd h' hxy
        · exact h'
      · exact hy z hz''

theorem sortByKey_pairwise (f : α → Nat × Nat) (l : List α) :
    (sortByKey f l).Pairwise (fun a b => lexLe (f a) (f b) = true) := by
  induction l with
  | nil => simp [sortByKey]
  | cons x xs ih => exact insKey_pairwise f x (sortByKey f xs) ih

/-- Two permuted lists that are both strictly sorted by a `Nat` key are equal. -/
theorem perm_pairwise_lt_eq (key : α → Nat) :
    ∀ {l₁ l₂ : List α}, List.Perm l₁ l₂ →
      l₁.Pairwise (fun a b => key a < key b) →
      l₂.Pairwise (fun a b => key a < key b) → l₁ = l₂ := by
  intro l₁
  induction l₁ with
  | nil => intro l₂ hp _ _; exact hp.nil_eq
  | cons x t₁ ih =>
    intro l₂ hp h₁ h₂
    match l₂ with
    | [] => exact absurd hp.symm.nil_eq (by simp)
    | y :: t₂ =>
      by_cases hxy : x = y
      · subst hxy
        have := ih (hp.cons_inv) (List.pairwise_cons.mp h₁).2 (List.pairwise_cons.mp h₂).2
        rw [this]
      · exfalso
        have hx2 : x ∈ y :: t₂ := hp.mem_iff.mp (List.mem_cons_self x t₁)
        have hxt2 : x ∈ t₂ := by
          rcases List.mem_cons.mp hx2 with h' | h'
          · exact absurd h' hxy
          · exact h'
        have hy1 : y ∈ x :: t₁ := hp.mem_iff.mpr (List.mem_cons_self y t₂)
        have hyt1 : y ∈ t₁ := by
          rcases List.mem_cons.mp hy1 with h' | h'
          · exact absurd h'.symm hxy
          · exact h'
        have h₁' := (List.pairwise_cons.mp h₁).1 y hyt1
        have h₂' := (List.pairwise_cons.mp h₂).1 x hxt2
        omega

theorem sortByVersion_pairwise_lt (l : List (EventRecord σ ε))
    (h : l.Pairwise (fun a b => a.applied_to_version < b.applied_to_version)) :
    (sortByVersion l).Pairwise
      (fun a b => a.applied_to_version < b.applied_to_version) := by
  have hle := sortByKey_pairwise (fun r : EventRecord σ ε => (r.applied_to_version, 0)) l
  have hne : (sortByVersion l).Pairwise
      (fun a b : EventRecord σ ε => a.applied_to_version ≠ b.applied_to_version) :=
    ((sortByKey_perm _ l).pairwise_iff (fun hab => hab.symm)).mpr
      (h.imp (fun hab => Nat.ne_of_lt hab))
  have hcomb := hle.and hne
  exact hcomb.imp (fun {a b} hab => by
    rcases hab with ⟨hab₁, hab₂⟩
    simp only [lexLe, Bool.or_eq_true, Bool.and_eq_true, decide_eq_true_eq,
      beq_iff_eq] at hab₁
    omega)

theorem sortByVersion_eq_self (l : List (EventRecord σ ε))
    (h : l.Pairwise (fun a b => a.applied_to_version < b.applied_to_version)) :
    sortByVersion l = l :=
  perm_pairwise_lt_eq (fun r => r.applied_to_version) (sortByKey_perm _ l)
    (sortByVersion_pairwise_lt l h) h

theorem get_take_eq (l : List α) :
    ∀ (n i : Nat) (h : i < (l.take n).length) (h' : i < l.length),
      (l.take n).get ⟨i, h⟩ = l.get ⟨i, h'⟩ := by
  induction l with
  | nil => intro n i h h'; simp at h'
  | cons a t ih =>
    intro n i h h'
    cases n with
    | zero => simp at h
    | succ n =>
      cases i with
      | zero => rfl
      | succ i =>
        exact ih n i (Nat.lt_of_succ_lt_succ (by simpa using h))
          (Nat.lt_of_succ_lt_succ h')

/-- A filter whose predicate holds exactly on the first `k` positions is a
`take`. -/
theorem filter_eq_take_of_iff (p : α → Bool) :
    ∀ (l : List α) (k : Nat),
      (∀ i (h : i < l.length), (p (l.get ⟨i, h⟩) = true ↔ i < k)) →
      l.filter p = l.take k := by
  intro l
  induction l with
  | nil => intro k _; simp
  | cons x t ih =>
    intro k hiff
    cases k with
    | zero =>
      have hx : p x = false := by
        have h0 := hiff 0 (by simp)
        simp only [List.get] at h0
        rcases hp : p x with _ | _
        · rfl
        · exact absurd (h0.mp hp) (by omega)
      have ht : t.filter p = [] := by
        rw [ih 0 (fun i h => ⟨fun hp =>
            absurd ((hiff (i+1) (Nat.succ_lt_succ h)).mp hp) (by omega),
          fun h0 => absurd h0 (Nat.not_lt_zero i)⟩)]
        simp
      simp [List.filter_cons, hx, ht]
    | succ k =>
      have hx : p x = true := (hiff 0 (by simp)).mpr (Nat.succ_pos k)
      have ht : t.filter p = t.take k :=
        ih k (fun i h => ⟨fun hp =>
            Nat.lt_of_succ_lt_succ ((hiff (i+1) (Nat.succ_lt_succ h)).mp hp),
          fun hi => (hiff (i+1) (Nat.succ_lt_succ h)).mpr (Nat.succ_lt_succ hi)⟩)
      simp [List.filter_cons, hx, ht, List.take_succ_cons]

/-- A filter whose predicate holds exactly from position `k` on is a `drop`. -/
theorem filter_eq_drop_of_iff (p : α → Bool) :
    ∀ (l : List α) (k : Nat),
      (∀ i (h : i < l.length), (p (l.get ⟨i, h⟩) = true ↔ k ≤ i)) →
      l.filter p = l.drop k := by
  intro l
  induction l with
  | nil => intro k _; simp
  | cons x t ih =>
    intro k hiff
    cases k with
    | zero =>
      have hx : p x = true := (hiff 0 (by simp)).mpr (Nat.le_refl 0)
      have ht : t.filter p = t :=
        (ih 0 (fun i h => ⟨fun _ => Nat.zero_le i,
          fun _ => (hiff (i+1) (Nat.succ_lt_succ h)).mpr (Nat.zero_le (i+1))⟩)).trans
          (List.drop_zero t)
      simp [List.filter_cons, hx, ht]
    | succ k =>
      have hx : p x = false := by
        rcases hp : p x with _ | _
        · rfl
        · have h0 := (hiff 0 (by simp)).mp hp
          omega
      have ht : t.filter p = t.drop k :=
        ih k (fun i h => ⟨fun hp =>
            Nat.le_of_succ_le_succ ((hiff (i+1) (Nat.succ_lt_succ h)).mp hp),
          fun hi => (hiff (i+1) (Nat.succ_lt_succ h)).mpr (Nat.succ_le_succ hi)⟩)
      simp [List.filter_cons, hx, ht, List.drop_succ_cons]

theorem dlookup_dinsert_self (m : List (Nat × β)) (k : Nat) (v : β) :
    dlookup (dinsert m k v) k = some v := by
  induction m with
  | nil => simp [dinsert, dlookup]
  | cons p rest ih =>
    obtain ⟨k', v'⟩ := p
    by_cases h : k' = k
    · subst h; simp [dinsert, dlookup]
    · simp [dinsert, dlookup, h, ih]

theorem dlookup_dinsert_ne (m : List (Nat × β)) {k' k : Nat} (v : β) (h : k' ≠ k) :
    dlookup (dinsert m k' v) k = dlookup m k := by
  induction m with
  | nil => simp [dinsert, dlookup, h]
  | cons p rest ih =>
    obtain ⟨k₀, v₀⟩ := p
    by_cases h₀ : k₀ = k'
    · subst h₀; simp [dinsert, dlookup, h]
    · by_cases h₁ : k₀ = k
      · subst h₁; simp [dinsert, dlookup, h₀, ih]
      · simp [dinsert, dlookup, h₀, h₁, ih]

/-- Looking up through a value-mapped association list. -/
theorem dlookup_map_value (g : β → γ) (m : List (Nat × β)) (k : Nat) :
    dlookup (m.map (fun p => (p.1, g p.2))) k = (dlookup m k).map g := by
  induction m with
  | nil => simp [dlookup]
  | cons p rest ih =>
    obtain ⟨k₀, v₀⟩ := p
    by_cases h : k₀ = k
    · subst h; simp [dlookup]
    · simp [dlookup, h, ih]

/-- The key shared by all elements of a `groupby` chunk. -/
def headKey (f : α → Nat) : List α → Nat
  | [] => 0
  | x :: _ => f x

theorem chunkByKey_cons_of_eq_nil (f : α → Nat) (x : α) (xs : List α)
    (h : chunkByKey f xs = []) : chunkByKey f (x :: xs) = [[x]] := by
  show (match chunkByKey f xs with
    | [] => [[x]]
    | [] :: gs => [x] :: [] :: gs
    | (y :: g) :: gs =>
      if f x == f y then (x :: y :: g) :: gs else [x] :: (y :: g) :: gs) = [[x]]
  rw [h]

theorem chunkByKey_cons_of_eq_true (f : α → Nat) (x : α) (xs : List α) {y : α}
    {g : List α} {gs : List (List α)} (h : chunkByKey f xs = (y :: g) :: gs)
    (hxy : (f x == f y) = true) :
    chunkByKey f (x :: xs) = (x :: y :: g) :: gs := by
  show (match chunkByKey f xs with
    | [] => [[x]]
    | [] :: gs => [x] :: [] :: gs
    | (y :: g) :: gs =>
      if f x == f y then (x :: y :: g) :: gs else [x] :: (y :: g) :: gs)
      = (x :: y :: g) :: gs
  rw [h]
  show (if (f x == f y) = true then (x :: y :: g) :: gs else [x] :: (y :: g) :: gs)
      = (x :: y :: g) :: gs
  rw [if_pos hxy]

theorem chunkByKey_cons_of_eq_false (f : α → Nat) (x : α) (xs : List α) {y : α}
    {g : List α} {gs : List (List α)} (h : chunkByKey f xs = (y :: g) :: gs)
    (hxy : (f x == f y) = false) :
    chunkByKey f (x :: xs) = [x] :: (y :: g) :: gs := by
  show (match chunkByKey f xs with
    | [] => [[x]]
    | [] :: gs => [x] :: [] :: gs
    | (y :: g) :: gs =>
      if f x == f y then (x :: y :: g) :: gs else [x] :: (y :: g) :: gs)
      = [x] :: (y :: g) :: gs
  rw [h]
  show (if (f x == f y) = true then (x :: y :: g) :: gs else [x] :: (y :: g) :: gs)
      = [x] :: (y :: g) :: gs
  rw [hxy]
  simp

theorem chunkByKey_ne_nil (f : α → Nat) :
    ∀ (l : List α), ∀ g ∈ chunkByKey f l, g ≠ [] := by
  intro l
  induction l with
  | nil => intro g hg; simp [chunkByKey] at hg
  | cons x xs ih =>
    intro g hg
    rcases hc : chunkByKey f xs with _ | ⟨g₀, gs⟩
    · rw [chunkByKey_cons_of_eq_nil f x xs hc] at hg
      rcases List.mem_cons.mp hg with h | h
      · subst h; simp
      · simp at h
    · match g₀, hc with
      | [], hc => exact absurd rfl (ih [] (hc ▸ List.mem_cons_self [] gs))
      | y :: g₁, hc =>
        rcases hxy : f x == f y with _ | _
        · rw [chunkByKey_cons_of_eq_false f x xs hc hxy] at hg
          rcases List.mem_cons.mp hg with h | h
          · subst h; simp
          · exact ih g (hc ▸ h)
        · rw [chunkByKey_cons_of_eq_true f x xs hc hxy] at hg
          rcases List.mem_cons.mp hg with h | h
          · subst h; simp
          · exact ih g (hc ▸ List.mem_cons_of_mem _ h)

theorem chunkByKey_flatten (f : α → Nat) :
    ∀ (l : List α), (chunkByKey f l).flatten = l := by
  intro l
  induction l with
  | nil => simp [chunkByKey]
  | cons x xs ih =>
    rcases hc : chunkByKey f xs with _ | ⟨g₀, gs⟩
    · rw [chunkByKey_cons_of_eq_nil f x xs hc]
      rw [hc] at ih
      simp at ih
      simp [ih.symm]
    · match g₀, hc with
      | [], hc => exact absurd rfl (chunkByKey_ne_nil f xs [] (hc ▸ List.mem_cons_self [] gs))
      | y :: g₁, hc =>
        rw [hc] at ih
        rcases hxy : f x == f y with _ | _
        · rw [chunkByKey_cons_of_eq_false f x xs hc hxy]
          simpa using ih
        · rw [chunkByKey_cons_of_eq_true f x xs hc hxy]
          simpa using ih

theorem chunkByKey_headKey_mem (f : α → Nat) :
    ∀ (l : List α), ∀ g ∈ chunkByKey f l, ∀ a ∈ g, f a = headKey f g := by
  intro l
  induction l with
  | nil => intro g hg; simp [chunkByKey] at hg
  | cons x xs ih =>
    intro g hg a ha
    rcases hc : chunkByKey f xs with _ | ⟨g₀, gs⟩
    · rw [chunkByKey_cons_of_eq_nil f x xs hc] at hg
      rcases List.mem_cons.mp hg with h | h
      · subst h
        rcases List.mem_cons.mp ha with h' | h'
        · rw [h']; rfl
        · simp at h'
      · simp at h
    · match g₀, hc with
      | [], hc => exact absurd rfl (chunkByKey_ne_nil f xs [] (hc ▸ List.mem_cons_self [] gs))
      | y :: g₁, hc =>
        rcases hxy : f x == f y with _ | _
        · rw [chunkByKey_cons_of_eq_false f x xs hc hxy] at hg
          rcases List.mem_cons.mp hg with h | h
          · subst h
            rcases List.mem_cons.mp ha with h' | h'
            · rw [h']; rfl
            · simp at h'
          · exact ih g (hc ▸ h) a ha
        · rw [chunkByKey_cons_of_eq_true f x xs hc hxy] at hg
          rcases List.mem_cons.mp hg with h | h
          · subst h
            rcases List.mem_cons.mp ha with h' | h'
            · rw [h']; rfl
            · have := ih (y :: g₁) (hc ▸ List.mem_cons_self _ gs) a h'
              simp only [headKey] at this ⊢
              rw [this]
              exact (beq_iff_eq.mp hxy).symm
          · exact ih g (hc ▸ List.mem_cons_of_mem _ h) a ha

theorem headKey_cons (f : α → Nat) (x : α) (t : List α) :
    headKey f (x :: t) = f x := rfl

theorem filter_flatten_eq (p : α → Bool) :
    ∀ (L : List (List α)), L.flatten.filter p = (L.map (List.filter p)).flatten := by
  intro L
  induction L with
  | nil => simp
  | cons g gs ih => simp [List.filter_append, ih]

theorem flatten_eq_nil_of_all :
    ∀ (L : List (List α)), (∀ g ∈ L, g = []) → L.flatten = [] := by
  intro L
  induction L with
  | nil => simp
  | cons g gs ih =>
    intro h
    rw [List.flatten_cons, h g (List.mem_cons_self _ _),
      ih (fun g' hg' => h g' (List.mem_cons_of_mem _ hg'))]
    rfl

theorem chunkByKey_heads_lt (f : α → Nat) :
    ∀ (l : List α), l.Pairwise (fun a b => f a ≤ f b) →
      (chunkByKey f l).Pairwise (fun g₁ g₂ => headKey f g₁ < headKey f g₂) := by
  intro l
  induction l with
  | nil => intro _; simp [chunkByKey]
  | cons x xs ih =>
    intro hp
    rcases List.pairwise_cons.mp hp with ⟨hx, hxs⟩
    rcases hc : chunkByKey f xs with _ | ⟨g₀, gs⟩
    · rw [chunkByKey_cons_of_eq_nil f x xs hc]; simp
    · match g₀, hc with
      | [], hc => exact absurd rfl (chunkByKey_ne_nil f xs [] (hc ▸ List.mem_cons_self [] gs))
      | y :: g₁, hc =>
        have ihc := ih hxs
        rw [hc] at ihc
        rcases hxy : f x == f y with _ | _
        · rw [chunkByKey_cons_of_eq_false f x xs hc hxy]
          have hyxs : y ∈ xs := by
            have hy : y ∈ (chunkByKey f xs).flatten := by rw [hc]; simp
            rwa [chunkByKey_flatten] at hy
          have hlt : f x < f y :=
            Nat.lt_of_le_of_ne (hx y hyxs) (by simpa using hxy)
          refine List.pairwise_cons.mpr ⟨?_, ihc⟩
          intro g' hg'
          rcases List.mem_cons.mp hg' with h | h
          · subst h; simpa [headKey_cons] using hlt
          · have h' := (List.pairwise_cons.mp ihc).1 g' h
            simp only [headKey_cons] at h' ⊢
            omega
        · have hxyeq : f x = f y := beq_iff_eq.mp hxy
          rw [chunkByKey_cons_of_eq_true f x xs hc hxy]
          refine List.pairwise_cons.mpr ⟨?_, (List.pairwise_cons.mp ihc).2⟩
          intro g' hg'
          have h' := (List.pairwise_cons.mp ihc).1 g' hg'
          simp only [headKey_cons] at h' ⊢
          omega

theorem chunk_filter_of_mem (f : α → Nat) (l : List α)
    (hp : l.Pairwise (fun a b => f a ≤ f b)) (g : List α) (hg : g ∈ chunkByKey f l) :
    l.filter (fun a => f a == headKey f g) = g := by
  obtain ⟨pre, post, hsplit⟩ := List.append_of_mem hg
  have hheads := chunkByKey_heads_lt f l hp
  rw [hsplit] at hheads
  rcases List.pairwise_append.mp hheads with ⟨hpre, hgp, hcross⟩
  have hzero : ∀ g' ∈ pre, g'.filter (fun a => f a == headKey f g) = [] := by
    intro g' hg'
    refine List.filter_eq_nil.mpr (fun a ha => ?_)
    have hkey := chunkByKey_headKey_mem f l g'
      (hsplit ▸ List.mem_append_left _ hg') a ha
    have hlt := hcross g' hg' g (List.mem_cons_self _ _)
    simp only [hkey, beq_iff_eq]
    omega
  have hzero' : ∀ g' ∈ post, g'.filter (fun a => f a == headKey f g) = [] := by
    intro g' hg'
    refine List.filter_eq_nil.mpr (fun a ha => ?_)
    have hkey := chunkByKey_headKey_mem f l g'
      (hsplit ▸ List.mem_append_right _ (List.mem_cons_of_mem _ hg')) a ha
    have hlt := (List.pairwise_cons.mp hgp).1 g' hg'
    simp only [hkey, beq_iff_eq]
    omega
  have hself : g.filter (fun a => f a == headKey f g) = g := by
    refine List.filter_eq_self.mpr (fun a ha => ?_)
    simp [chunkByKey_headKey_mem f l g hg a ha]
  calc l.filter (fun a => f a == headKey f g)
      = (chunkByKey f l).flatten.filter (fun a => f a == headKey f g) := by
        rw [chunkByKey_flatten]
    _ = ((pre ++ g :: post).map (List.filter (fun a => f a == headKey f g))).flatten := by
        rw [hsplit, filter_flatten_eq]
    _ = g := by
        rw [List.map_append, List.flatten_append, flatten_eq_nil_of_all _ (by
          intro g' hg'
          rcases List.mem_map.mp hg' with ⟨g₀, hg₀, rfl⟩
          exact hzero g₀ hg₀)]
        simp only [List.map_cons, List.flatten_cons, hself, List.nil_append]
        rw [flatten_eq_nil_of_all _ (by
          intro g' hg'
          rcases List.mem_map.mp hg' with ⟨g₀, hg₀, rfl⟩
          exact hzero' g₀ hg₀)]
        simp

theorem chunk_filter_of_not_mem (f : α → Nat) (l : List α) (k : Nat)
    (hk : ∀ g ∈ chunkByKey f l, headKey f g ≠ k) :
    l.filter (fun a => f a == k) = [] := by
  refine List.filter_eq_nil.mpr (fun a ha => ?_)
  rw [← chunkByKey_flatten f l, List.mem_flatten] at ha
  obtain ⟨g, hg, hag⟩ := ha
  have h := chunkByKey_headKey_mem f l g hg a hag
  simp only [h, beq_iff_eq]
  exact hk g hg

theorem foldl_groupStep_not_mem (C : AggClass σ ε) :
    ∀ (gs : List (List (EventRecord σ ε))) (inst : List (Nat × Aggregate σ)) (k : Nat),
      (∀ g ∈ gs, headKey (fun r => r.object_id) g ≠ k) →
      dlookup (gs.foldl (groupStep C) inst) k = dlookup inst k := by
  intro gs
  induction gs with
  | nil => intro inst k _; rfl
  | cons g gs ih =>
    intro inst k hk
    have hgk := hk g (List.mem_cons_self _ _)
    have hstep : dlookup (groupStep C inst g) k = dlookup inst k := by
      match g with
      | [] => rfl
      | r :: g' =>
        simp only [groupStep]
        exact dlookup_dinsert_ne _ _ (by simpa [headKey_cons] using hgk)
    rw [List.foldl_cons, ih _ k (fun g' hg' => hk g' (List.mem_cons_of_mem _ hg')), hstep]

theorem foldl_groupStep_mem (C : AggClass σ ε) :
    ∀ (gs : List (List (EventRecord σ ε))) (inst : List (Nat × Aggregate σ))
      (r : EventRecord σ ε) (g' : List (EventRecord σ ε)),
      (r :: g') ∈ gs →
      gs.Pairwise (fun g₁ g₂ =>
        headKey (fun x => x.object_id) g₁ ≠ headKey (fun x => x.object_id) g₂) →
      dlookup (gs.foldl (groupStep C) inst) r.object_id =
        some ((r :: g').foldl (applyRow C)
          (match dlookup inst r.object_id with
           | some a => a
           | none => defaultAgg C r.object_id)) := by
  intro gs
  induction gs with
  | nil => intro inst r g' hg _; simp at hg
  | cons g₀ gs ih =>
    intro inst r g' hg hpw
    rcases List.mem_cons.mp hg with h | h
    · subst h
      rw [List.foldl_cons]
      rw [foldl_groupStep_not_mem C gs _ r.object_id (fun g₂ hg₂ => by
        have := (List.pairwise_cons.mp hpw).1 g₂ hg₂
        simpa [headKey_cons] using this.symm)]
      simp only [groupStep]
      exact dlookup_dinsert_self _ _ _
    · have hne : headKey (fun x => x.object_id) g₀ ≠ r.object_id := by
        have := (List.pairwise_cons.mp hpw).1 (r :: g') h
        simpa [headKey_cons] using this
      have hstep : dlookup (groupStep C inst g₀) r.object_id = dlookup inst r.object_id := by
        rcases g₀ with _ | ⟨r₀, g₀'⟩
        · rfl
        · simp only [groupStep]
          exact dlookup_dinsert_ne _ _ (by simpa [headKey_cons] using hne)
      rw [List.foldl_cons, ih _ r g' h (List.pairwise_cons.mp hpw).2, hstep]

/-- Reference recursion for the best-snapshot selection of `restore_many`. -/
def pickBest : Option (EventRecord σ ε) → List (EventRecord σ ε) →
    Option (EventRecord σ ε)
  | cur, [] => cur
  | cur, s :: t =>
    match cur with
    | some c => if s.timestamp > c.timestamp then pickBest (some s) t else pickBest (some c) t
    | none => pickBest (some s) t

theorem foldl_snapStep_spec :
    ∀ (l : List (EventRecord σ ε)) (m : List (Nat × Nat) × List (Nat × EventRecord σ ε)),
      (∀ k, dlookup m.1 k = (dlookup m.2 k).map (fun r => r.timestamp)) →
      (∀ k, dlookup (l.foldl snapStep m).1 k
          = (dlookup (l.foldl snapStep m).2 k).map (fun r => r.timestamp))
        ∧ (∀ k, dlookup (l.foldl snapStep m).2 k
          = pickBest (dlookup m.2 k) (l.filter (fun r => r.object_id == k))) := by
  intro l
  induction l with
  | nil => intro m hm; exact ⟨hm, fun k => rfl⟩
  | cons s t ih =>
    intro m hm
    have hms := hm s.object_id
    rcases hc : dlookup m.2 s.object_id with _ | c
    · have h1 : dlookup m.1 s.object_id = none := by rw [hms, hc]; rfl
      have hstep : snapStep m s
          = (dinsert m.1 s.object_id s.timestamp, dinsert m.2 s.object_id s) := by
        simp [snapStep, h1]
      have hm' : ∀ k, dlookup (snapStep m s).1 k
          = (dlookup (snapStep m s).2 k).map (fun r => r.timestamp) := by
        intro k
        rw [hstep]
        by_cases hk : s.object_id = k
        · subst hk; simp [dlookup_dinsert_self]
        · simp only []
          rw [dlookup_dinsert_ne _ _ hk, dlookup_dinsert_ne _ _ hk, hm k]
      obtain ⟨ih1, ih2⟩ := ih (snapStep m s) hm'
      refine ⟨by simpa using ih1, fun k => ?_⟩
      rw [List.foldl_cons, ih2 k]
      by_cases hk : s.object_id = k
      · subst hk
        rw [hstep]
        simp only []
        rw [dlookup_dinsert_self]
        simp [List.filter_cons, hc, pickBest]
      · rw [hstep]
        simp only []
        rw [dlookup_dinsert_ne _ _ hk]
        have : (s.object_id == k) = false := by simpa using hk
        simp [List.filter_cons, this, hc]
    · have h1 : dlookup m.1 s.object_id = some c.timestamp := by rw [hms, hc]; rfl
      by_cases hgt : s.timestamp > c.timestamp
      · have hstep : snapStep m s
            = (dinsert m.1 s.object_id s.timestamp, dinsert m.2 s.object_id s) := by
          simp [snapStep, h1, hgt]
        have hm' : ∀ k, dlookup (snapStep m s).1 k
            = (dlookup (snapStep m s).2 k).map (fun r => r.timestamp) := by
          intro k
          rw [hstep]
          by_cases hk : s.object_id = k
          · subst hk; simp [dlookup_dinsert_self]
          · simp only []
            rw [dlookup_dinsert_ne _ _ hk, dlookup_dinsert_ne _ _ hk, hm k]
        obtain ⟨ih1, ih2⟩ := ih (snapStep m s) hm'
        refine ⟨by simpa using ih1, fun k => ?_⟩
        rw [List.foldl_cons, ih2 k]
        by_cases hk : s.object_id = k
        · subst hk
          rw [hstep]
          simp only []
          rw [dlookup_dinsert_self]
          simp [List.filter_cons, hc, pickBest, hgt]
        · rw [hstep]
          simp only []
          rw [dlookup_dinsert_ne _ _ hk]
          have : (s.object_id == k) = false := by simpa using hk
          simp [List.filter_cons, this, hc]
      · have hstep : snapStep m s = m := by
          simp [snapStep, h1, hgt]
        obtain ⟨ih1, ih2⟩ := ih (snapStep m s) (fun k => by rw [hstep]; exact hm k)
        refine ⟨by simpa using ih1, fun k => ?_⟩
        rw [List.foldl_cons, ih2 k, hstep]
        by_cases hk : s.object_id = k
        · subst hk
          simp [List.filter_cons, hc, pickBest, hgt]
        · have : (s.object_id == k) = false := by simpa using hk
          simp [List.filter_cons, this]

theorem snapMaps_lookup_snap (l : List (EventRecord σ ε)) (k : Nat) :
    dlookup (snapMaps l).2 k = pickBest none (l.filter (fun r => r.object_id == k)) := by
  have h := foldl_snapStep_spec l ([], []) (fun _ => rfl)
  exact h.2 k

theorem snapMaps_lookup_ts (l : List (EventRecord σ ε)) (k : Nat) :
    dlookup (snapMaps l).1 k = (dlookup (snapMaps l).2 k).map (fun r => r.timestamp) := by
  have h := foldl_snapStep_spec l ([], []) (fun _ => rfl)
  exact h.1 k

theorem getLastD_mem (t : List α) : ∀ (x : α), t.getLastD x ∈ x :: t := by
  induction t with
  | nil => intro x; simp [List.getLastD]
  | cons y t ih =>
    intro x
    simp only [List.getLastD_cons]
    exact List.mem_cons_of_mem x (ih y)

theorem pickBest_some_increasing :
    ∀ (l : List (EventRecord σ ε)) (c : EventRecord σ ε),
      l.Pairwise (fun a b => a.timestamp < b.timestamp) →
      (∀ x ∈ l, c.timestamp < x.timestamp) →
      pickBest (some c) l = some (l.getLastD c) := by
  intro l
  induction l with
  | nil => intro c _ _; rfl
  | cons x t ih =>
    intro c hp hcl
    have hcx : x.timestamp > c.timestamp := hcl x (List.mem_cons_self _ _)
    simp only [pickBest, if_pos hcx, List.getLastD_cons]
    exact ih x (List.pairwise_cons.mp hp).2 (List.pairwise_cons.mp hp).1

theorem getLast?_cons_eq (x : α) (t : List α) :
    (x :: t).getLast? = some (t.getLastD x) := by
  induction t generalizing x with
  | nil => rfl
  | cons y t ih => rw [List.getLast?_cons_cons, ih y, List.getLastD_cons]

theorem pickBest_none_increasing (l : List (EventRecord σ ε))
    (hp : l.Pairwise (fun a b => a.timestamp < b.timestamp)) :
    pickBest none l = l.getLast? := by
  rcases l with _ | ⟨x, t⟩
  · rfl
  · show pickBest (some x) t = _
    rw [pickBest_some_increasing t x (List.pairwise_cons.mp hp).2
      (List.pairwise_cons.mp hp).1, getLast?_cons_eq]

theorem bool_and_split {a b : Bool} (h : (a && b) = true) : a = true ∧ b = true := by
  rcases a <;> rcases b <;> simp_all

theorem bool_and_mk {a b : Bool} (h1 : a = true) (h2 : b = true) : (a && b) = true := by
  rw [h1, h2]; rfl

/-! ## The event rows and snapshot rows of one aggregate, and replay -/

/-- The EVENT rows of one aggregate (in store order). -/
def evRows (C : AggClass σ ε) (rows : List (EventRecord σ ε)) (oid : Nat) :
    List (EventRecord σ ε) :=
  rows.filter (evFilter C oid)

/-- The SNAPSHOT rows of one aggregate (in store order). -/
def snapRows (C : AggClass σ ε) (rows : List (EventRecord σ ε)) (oid : Nat) :
    List (EventRecord σ ε) :=
  rows.filter (snapFilter C oid)

/-- Folding a list of EVENT rows onto a freshly constructed aggregate. -/
def replay (C : AggClass σ ε) (oid : Nat) (rs : List (EventRecord σ ε)) : Aggregate σ :=
  rs.foldl (applyRow C) (defaultAgg C oid)

/-! ## The reachable-store discipline for one aggregate

A store produced by running `trigger_event`/`snapshot` on one aggregate
(starting from a default-constructed instance, with events whose `apply` does
not touch the `version` field) has, for each aggregate id: EVENT rows carrying
`applied_to_version` 0, 1, 2, … in store order; strictly increasing
store-assigned timestamps; and SNAPSHOT rows that capture exactly the replay
of the EVENT rows written before them, stamped with that replay's version and
sitting strictly between the timestamps of the events before and after them.
The checkers below state this discipline executably. -/

/-- EVENT rows carry consecutive `applied_to_version` values starting at `b`. -/
def verChain : Nat → List (EventRecord σ ε) → Bool
  | _, [] => true
  | b, r :: t => (r.applied_to_version == b) && verChain (b + 1) t

/-- Strictly increasing timestamps. -/
def tsChain : List (EventRecord σ ε) → Bool
  | [] => true
  | [_] => true
  | r :: r' :: t => (decide (r.timestamp < r'.timestamp)) && tsChain (r' :: t)

/-- A snapshot written at version `k` and timestamp `sts` sits after the first
`k` event rows and before the rest (positions counted from `i`). -/
def snapRel (sts k : Nat) : Nat → List (EventRecord σ ε) → Bool
  | _, [] => true
  | i, r :: t =>
    (if i < k then decide (r.timestamp < sts) else decide (sts < r.timestamp))
      && snapRel sts k (i + 1) t

/-- One SNAPSHOT row is consistent with the aggregate's EVENT rows `E`. -/
def snapOK (C : AggClass σ ε) [DecidableEq σ] [DecidableEq ε] (oid : Nat)
    (E : List (EventRecord σ ε)) (s : EventRecord σ ε) : Bool :=
  (s.name == C.clsName) && (decide (s.applied_to_version ≤ E.length))
    && (s.state == RecState.snap (replay C oid (E.take s.applied_to_version)))
    && snapRel s.timestamp s.applied_to_version 0 E

/-- The full discipline for one aggregate id. -/
def oidInv (C : AggClass σ ε) [DecidableEq σ] [DecidableEq ε]
    (rows : List (EventRecord σ ε)) (oid : Nat) : Bool :=
  verChain 0 (evRows C rows oid) && tsChain (evRows C rows oid)
    && tsChain (snapRows C rows oid)
    && (snapRows C rows oid).all (fun s => snapOK C oid (evRows C rows oid) s)

theorem verChain_get :
    ∀ (E : List (EventRecord σ ε)) (b : Nat), verChain b E = true →
      ∀ i (h : i < E.length), (E.get ⟨i, h⟩).applied_to_version = b + i := by
  intro E
  induction E with
  | nil => intro b _ i h; simp at h
  | cons r t ih =>
    intro b hv i h
    rcases bool_and_split hv with ⟨h1, h2⟩
    cases i with
    | zero => simpa using beq_iff_eq.mp h1
    | succ i =>
      have := ih (b + 1) h2 i (Nat.lt_of_succ_lt_succ h)
      exact this.trans (by omega : b + 1 + i = b + (i + 1))

theorem verChain_mem_ge :
    ∀ (E : List (EventRecord σ ε)) (b : Nat), verChain b E = true →
      ∀ x ∈ E, b ≤ x.applied_to_version := by
  intro E
  induction E with
  | nil => intro b _ x hx; simp at hx
  | cons r t ih =>
    intro b hv x hx
    rcases bool_and_split hv with ⟨h1, h2⟩
    rcases List.mem_cons.mp hx with h | h
    · rw [h, beq_iff_eq.mp h1]
    · exact Nat.le_of_succ_le (ih (b + 1) h2 x h)

theorem verChain_pairwise :
    ∀ (E : List (EventRecord σ ε)) (b : Nat), verChain b E = true →
      E.Pairwise (fun a c => a.applied_to_version < c.applied_to_version) := by
  intro E
  induction E with
  | nil => intro b _; simp
  | cons r t ih =>
    intro b hv
    rcases bool_and_split hv with ⟨h1, h2⟩
    refine List.pairwise_cons.mpr ⟨fun x hx => ?_, ih (b + 1) h2⟩
    have := verChain_mem_ge t (b + 1) h2 x hx
    have hr := beq_iff_eq.mp h1
    omega

theorem tsChain_iff_pairwise :
    ∀ (l : List (EventRecord σ ε)),
      tsChain l = true ↔ l.Pairwise (fun a b => a.timestamp < b.timestamp) := by
  intro l
  induction l with
  | nil => simp [tsChain]
  | cons r t ih =>
    rcases t with _ | ⟨r', t'⟩
    · simp [tsChain]
    · constructor
      · intro h
        rcases bool_and_split h with ⟨h1, h2⟩
        have hp := ih.mp h2
        refine List.pairwise_cons.mpr ⟨fun x hx => ?_, hp⟩
        rcases List.mem_cons.mp hx with hx' | hx'
        · rw [hx']; exact of_decide_eq_true h1
        · have := (List.pairwise_cons.mp hp).1 x hx'
          have h1' := of_decide_eq_true h1
          omega
      · intro hp
        rcases List.pairwise_cons.mp hp with ⟨hr, hp'⟩
        refine bool_and_mk (decide_eq_true ?_) (ih.mpr hp')
        exact hr r' (List.mem_cons_self _ _)

theorem snapRel_get :
    ∀ (E : List (EventRecord σ ε)) (b sts k : Nat), snapRel sts k b E = true →
      ∀ i (h : i < E.length),
        (b + i < k → (E.get ⟨i, h⟩).timestamp < sts)
          ∧ (k ≤ b + i → sts < (E.get ⟨i, h⟩).timestamp) := by
  intro E
  induction E with
  | nil => intro b sts k _ i h; simp at h
  | cons r t ih =>
    intro b sts k hs i h
    rcases bool_and_split hs with ⟨h1, h2⟩
    cases i with
    | zero =>
      constructor
      · intro hbk
        have : b < k := by omega
        rw [if_pos this] at h1
        exact of_decide_eq_true h1
      · intro hkb
        have : ¬ b < k := by omega
        rw [if_neg this] at h1
        exact of_decide_eq_true h1
    | succ i =>
      have := ih (b + 1) sts k h2 i (Nat.lt_of_succ_lt_succ h)
      constructor
      · intro hbk; exact this.1 (by omega)
      · intro hkb; exact this.2 (by omega)

theorem oidInv_parts {C : AggClass σ ε} [DecidableEq σ] [DecidableEq ε]
    {rows : List (EventRecord σ ε)} {oid : Nat} (h : oidInv C rows oid = true) :
    verChain 0 (evRows C rows oid) = true
      ∧ tsChain (evRows C rows oid) = true
      ∧ tsChain (snapRows C rows oid) = true
      ∧ ∀ s ∈ snapRows C rows oid, snapOK C oid (evRows C rows oid) s = true := by
  rcases bool_and_split h with ⟨h123, h4⟩
  rcases bool_and_split h123 with ⟨h12, h3⟩
  rcases bool_and_split h12 with ⟨h1, h2⟩
  exact ⟨h1, h2, h3, List.all_eq_true.mp h4⟩

theorem snapOK_parts {C : AggClass σ ε} [DecidableEq σ] [DecidableEq ε] {oid : Nat}
    {E : List (EventRecord σ ε)} {s : EventRecord σ ε}
    (h : snapOK C oid E s = true) :
    s.name = C.clsName ∧ s.applied_to_version ≤ E.length
      ∧ s.state = RecState.snap (replay C oid (E.take s.applied_to_version))
      ∧ ∀ i (hi : i < E.length),
          (i < s.applied_to_version → (E.get ⟨i, hi⟩).timestamp < s.timestamp)
            ∧ (s.applied_to_version ≤ i → s.timestamp < (E.get ⟨i, hi⟩).timestamp) := by
  rcases bool_and_split h with ⟨h123, h4⟩
  rcases bool_and_split h123 with ⟨h12, h3⟩
  rcases bool_and_split h12 with ⟨h1, h2⟩
  refine ⟨beq_iff_eq.mp h1, of_decide_eq_true h2, beq_iff_eq.mp h3, fun i hi => ?_⟩
  have := snapRel_get E 0 s.timestamp s.applied_to_version h4 i hi
  constructor
  · intro hik; exact this.1 (by omega)
  · intro hki; exact this.2 (by omega)

theorem head?_eq_some_mem {l : List α} {x : α} (h : l.head? = some x) : x ∈ l := by
  cases l with
  | nil => simp at h
  | cons a t =>
    rw [List.head?_cons, Option.some_inj] at h
    rw [← h]
    exact List.mem_cons_self _ _

/-- A permutation of a strictly version-sorted list that is weakly sorted is
itself strictly sorted. -/
theorem pairwise_ver_lt_of_perm {l₁ l₂ : List (EventRecord σ ε)}
    (hperm : List.Perm l₁ l₂)
    (h₁ : l₁.Pairwise (fun a b => a.applied_to_version < b.applied_to_version))
    (h₂ : l₂.Pairwise (fun a b => a.applied_to_version ≤ b.applied_to_version)) :
    l₂.Pairwise (fun a b => a.applied_to_version < b.applied_to_version) := by
  have hne : l₂.Pairwise
      (fun a b : EventRecord σ ε => a.applied_to_version ≠ b.applied_to_version) :=
    (hperm.pairwise_iff (fun hab => hab.symm)).mp
      (h₁.imp (fun hab => Nat.ne_of_lt hab))
  exact (h₂.and hne).imp (fun hab => Nat.lt_of_le_of_ne hab.1 hab.2)

/-- On a list with strictly increasing timestamps, the rows with
`timestamp ≤ T` are an initial segment. -/
theorem exists_cut_ts (T : Nat) :
    ∀ (E : List (EventRecord σ ε)),
      E.Pairwise (fun a b => a.timestamp < b.timestamp) →
      ∃ m, m ≤ E.length ∧
        ∀ i (h : i < E.length),
          ((decide ((E.get ⟨i, h⟩).timestamp ≤ T)) = true ↔ i < m) := by
  intro E
  induction E with
  | nil => intro _; exact ⟨0, Nat.le_refl 0, fun i h => by simp at h⟩
  | cons x t ih =>
    intro hp
    rcases List.pairwise_cons.mp hp with ⟨hx, hp'⟩
    by_cases hxT : x.timestamp ≤ T
    · obtain ⟨m, hm, hiff⟩ := ih hp'
      refine ⟨m + 1, Nat.succ_le_succ hm, fun i h => ?_⟩
      cases i with
      | zero => simpa using hxT
      | succ i =>
        have := hiff i (Nat.lt_of_succ_lt_succ h)
        constructor
        · intro hd; exact Nat.succ_lt_succ (this.mp hd)
        · intro hd; exact this.mpr (Nat.lt_of_succ_lt_succ hd)
    · refine ⟨0, Nat.zero_le _, fun i h => ?_⟩
      cases i with
      | zero => simp [hxT]
      | succ i =>
        have hmem : t.get ⟨i, Nat.lt_of_succ_lt_succ h⟩ ∈ t := List.get_mem t _ _
        have hlt := hx _ hmem
        have hgg : (x :: t).get ⟨i + 1, h⟩ = t.get ⟨i, Nat.lt_of_succ_lt_succ h⟩ := rfl
        rw [hgg]
        constructor
        · intro hd
          have := of_decide_eq_true hd
          omega
        · intro hd; omega

theorem restore_eq_ok (C : AggClass σ ε) (rows : List (EventRecord σ ε))
    (oid : Nat) (version timestamp : Option Nat)
    (snaps events : List (EventRecord σ ε))
    (hguard : (version.isNone == timestamp.isNone) = false)
    (hs : snapshotQuery C rows oid version timestamp = .ok snaps)
    (he : eventQuery C rows oid version timestamp = .ok events) :
    restore C rows oid version timestamp =
      match snaps.head? with
      | some s =>
        .ok ((events.filter
            (fun r => s.applied_to_version ≤ r.applied_to_version)).foldl
          (applyRow C) (load_snapshot C s))
      | none => .ok (events.foldl (applyRow C) (defaultAgg C oid)) := by
  unfold restore
  rw [if_neg (by rw [hguard]; simp), hs, he]

theorem snapshotQuery_some (C : AggClass σ ε) (rows : List (EventRecord σ ε))
    (oid V : Nat) (hV : 1 ≤ V) (timestamp : Option Nat) :
    snapshotQuery C rows oid (some V) timestamp
      = .ok ((sortByVersion (rows.filter (snapFilter C oid))).filter
          (fun r => decide (r.applied_to_version ≤ V))) := by
  unfold snapshotQuery
  rw [if_pos (by simp [truthy]; omega)]
  exact rfl

theorem eventQuery_some (C : AggClass σ ε) (rows : List (EventRecord σ ε))
    (oid V : Nat) (hV : 1 ≤ V) (timestamp : Option Nat) :
    eventQuery C rows oid (some V) timestamp
      = .ok ((sortByVersion (rows.filter (evFilter C oid))).filter
          (fun r => decide (r.applied_to_version < V))) := by
  unfold eventQuery
  rw [if_pos (by simp [truthy]; omega)]
  exact rfl

/-- `restore` with a positive version bound, over any store obeying the
reachable-store discipline, returns the replay of the first `V` event rows —
no matter which snapshots exist. -/
theorem restore_version_spec (C : AggClass σ ε) [DecidableEq σ] [DecidableEq ε]
    (rows : List (EventRecord σ ε)) (oid V : Nat)
    (hinv : oidInv C rows oid = true) (hV : 1 ≤ V) :
    restore C rows oid (some V) none
      = .ok (replay C oid ((evRows C rows oid).take V)) := by
  obtain ⟨hver, hts, hsts, hall⟩ := oidInv_parts hinv
  have hpw : (evRows C rows oid).Pairwise
      (fun a c => a.applied_to_version < c.applied_to_version) :=
    verChain_pairwise _ 0 hver
  have hgetE : ∀ i (h : i < (evRows C rows oid).length),
      ((evRows C rows oid).get ⟨i, h⟩).applied_to_version = i := by
    intro i h; simpa using verChain_get _ 0 hver i h
  have hEdef : rows.filter (evFilter C oid) = evRows C rows oid := rfl
  have hSdef : rows.filter (snapFilter C oid) = snapRows C rows oid := rfl
  have hevents : (sortByVersion (rows.filter (evFilter C oid))).filter
      (fun r => decide (r.applied_to_version < V)) = (evRows C rows oid).take V := by
    rw [hEdef, sortByVersion_eq_self _ hpw]
    refine filter_eq_take_of_iff _ _ V (fun i h => ?_)
    rw [hgetE i h]
    simp
  rw [restore_eq_ok C rows oid (some V) none _ _ rfl
    (snapshotQuery_some C rows oid V hV none) (eventQuery_some C rows oid V hV none),
    hevents]
  cases hh : ((sortByVersion (rows.filter (snapFilter C oid))).filter
      (fun r => decide (r.applied_to_version ≤ V))).head? with
  | none => rfl
  | some s =>
    have hsmem := head?_eq_some_mem hh
    rcases List.mem_filter.mp hsmem with ⟨hs₁, hs₂⟩
    have hsS : s ∈ snapRows C rows oid := by
      rw [← hSdef]
      exact (sortByKey_perm _ _).mem_iff.mp (hSdef ▸ hs₁)
    have hkV : s.applied_to_version ≤ V := of_decide_eq_true hs₂
    obtain ⟨_, hklen, hstate, _⟩ := snapOK_parts (hall s hsS)
    have hload : load_snapshot C s
        = replay C oid ((evRows C rows oid).take s.applied_to_version) := by
      unfold load_snapshot
      rw [hstate]
    have hfilter : ((evRows C rows oid).take V).filter
        (fun r => decide (s.applied_to_version ≤ r.applied_to_version))
        = ((evRows C rows oid).take V).drop s.applied_to_version := by
      refine filter_eq_drop_of_iff _ _ s.applied_to_version (fun i h => ?_)
      have hlen : i < (evRows C rows oid).length := by
        have := h
        rw [List.length_take] at this
        omega
      rw [get_take_eq _ V i h hlen, hgetE i hlen]
      simp
    have htk : ((evRows C rows oid).take V).take s.applied_to_version
        = (evRows C rows oid).take s.applied_to_version := by
      rw [List.take_take]
      congr 1
      omega
    have hsplit : (evRows C rows oid).take V
        = (evRows C rows oid).take s.applied_to_version
          ++ ((evRows C rows oid).take V).drop s.applied_to_version := by
      rw [← htk, List.take_append_drop]
    show Except.ok ((((evRows C rows oid).take V).filter
        (fun r => decide (s.applied_to_version ≤ r.applied_to_version))).foldl
      (applyRow C) (load_snapshot C s)) = _
    rw [hfilter, hload]
    conv_rhs => rw [hsplit]
    rw [show replay C oid ((evRows C rows oid).take s.applied_to_version
        ++ ((evRows C rows oid).take V).drop s.applied_to_version)
      = (((evRows C rows oid).take V).drop s.applied_to_version).foldl (applyRow C)
        (replay C oid ((evRows C rows oid).take s.applied_to_version))
      from by unfold replay; rw [List.foldl_append]]

theorem snapshotQuery_ts (C : AggClass σ ε) (rows : List (EventRecord σ ε))
    (oid T : Nat) :
    snapshotQuery C rows oid none (some T)
      = .ok ((sortByVersion (rows.filter (snapFilter C oid))).filter
          (fun r => decide (r.timestamp ≤ T))) := rfl

theorem eventQuery_ts (C : AggClass σ ε) (rows : List (EventRecord σ ε))
    (oid T : Nat) :
    eventQuery C rows oid none (some T)
      = .ok ((sortByVersion (rows.filter (evFilter C oid))).filter
          (fun r => decide (r.timestamp ≤ T))) := rfl

/-- `restore` with a timestamp bound, over any store obeying the
reachable-store discipline, returns the replay of the event rows written at or
before the bound — no matter which snapshots exist. -/
theorem restore_timestamp_spec (C : AggClass σ ε) [DecidableEq σ] [DecidableEq ε]
    (rows : List (EventRecord σ ε)) (oid T : Nat)
    (hinv : oidInv C rows oid = true) :
    restore C rows oid none (some T)
      = .ok (replay C oid
          ((evRows C rows oid).filter (fun r => decide (r.timestamp ≤ T)))) := by
  obtain ⟨hver, hts, hsts, hall⟩ := oidInv_parts hinv
  have hpw : (evRows C rows oid).Pairwise
      (fun a c => a.applied_to_version < c.applied_to_version) :=
    verChain_pairwise _ 0 hver
  have hgetE : ∀ i (h : i < (evRows C rows oid).length),
      ((evRows C rows oid).get ⟨i, h⟩).applied_to_version = i := by
    intro i h; simpa using verChain_get _ 0 hver i h
  have htsE := (tsChain_iff_pairwise (evRows C rows oid)).mp hts
  obtain ⟨m, hmlen, hcut⟩ := exists_cut_ts T (evRows C rows oid) htsE
  have hEfilter : (evRows C rows oid).filter (fun r => decide (r.timestamp ≤ T))
      = (evRows C rows oid).take m :=
    filter_eq_take_of_iff _ _ m hcut
  have hevents : (sortByVersion (rows.filter (evFilter C oid))).filter
      (fun r => decide (r.timestamp ≤ T)) = (evRows C rows oid).take m := by
    have hEdef : rows.filter (evFilter C oid) = evRows C rows oid := rfl
    rw [hEdef, sortByVersion_eq_self _ hpw, hEfilter]
  rw [restore_eq_ok C rows oid none (some T) _ _ rfl
    (snapshotQuery_ts C rows oid T) (eventQuery_ts C rows oid T), hevents]
  cases hh : ((sortByVersion (rows.filter (snapFilter C oid))).filter
      (fun r => decide (r.timestamp ≤ T))).head? with
  | none =>
    rw [hEfilter]
    exact rfl
  | some s =>
    have hsmem := head?_eq_some_mem hh
    rcases List.mem_filter.mp hsmem with ⟨hs₁, hs₂⟩
    have hSdef : rows.filter (snapFilter C oid) = snapRows C rows oid := rfl
    have hsS : s ∈ snapRows C rows oid := by
      rw [← hSdef]
      exact (sortByKey_perm _ _).mem_iff.mp hs₁
    have hsT : s.timestamp ≤ T := of_decide_eq_true hs₂
    obtain ⟨_, hklen, hstate, htsrel⟩ := snapOK_parts (hall s hsS)
    have hkm : s.applied_to_version ≤ m := by
      by_contra h'
      have hmk : m < s.applied_to_version := by omega
      have hmE : m < (evRows C rows oid).length := Nat.lt_of_lt_of_le hmk hklen
      have h1 := (htsrel m hmE).1 hmk
      have h2 : (decide (((evRows C rows oid).get ⟨m, hmE⟩).timestamp ≤ T)) = true :=
        decide_eq_true (by omega)
      have := (hcut m hmE).mp h2
      omega
    have hload : load_snapshot C s
        = replay C oid ((evRows C rows oid).take s.applied_to_version) := by
      unfold load_snapshot
      rw [hstate]
    have hfilter : ((evRows C rows oid).take m).filter
        (fun r => decide (s.applied_to_version ≤ r.applied_to_version))
        = ((evRows C rows oid).take m).drop s.applied_to_version := by
      refine filter_eq_drop_of_iff _ _ s.applied_to_version (fun i h => ?_)
      have hlen : i < (evRows C rows oid).length := by
        have := h
        rw [List.length_take] at this
        omega
      rw [get_take_eq _ m i h hlen, hgetE i hlen]
      simp
    have htk : ((evRows C rows oid).take m).take s.applied_to_version
        = (evRows C rows oid).take s.applied_to_version := by
      rw [List.take_take]
      congr 1
      omega
    have hsplit : (evRows C rows oid).take m
        = (evRows C rows oid).take s.applied_to_version
          ++ ((evRows C rows oid).take m).drop s.applied_to_version := by
      rw [← htk, List.take_append_drop]
    show Except.ok ((((evRows C rows oid).take m).filter
        (fun r => decide (s.applied_to_version ≤ r.applied_to_version))).foldl
      (applyRow C) (load_snapshot C s)) = _
    rw [hfilter, hload, hEfilter]
    conv_rhs => rw [hsplit]
    rw [show replay C oid ((evRows C rows oid).take s.applied_to_version
        ++ ((evRows C rows oid).take m).drop s.applied_to_version)
      = (((evRows C rows oid).take m).drop s.applied_to_version).foldl (applyRow C)
        (replay C oid ((evRows C rows oid).take s.applied_to_version))
      from by unfold replay; rw [List.foldl_append]]

theorem contains_eq_true_iff (l : List Nat) (a : Nat) : l.contains a = true ↔ a ∈ l :=
  List.elem_iff

/-- What the grouped replay loop of `restore_many` leaves in its dictionary at
one key: the fold of that key's (sorted) event rows onto the snapshot start or
a default instance. -/
theorem chunk_lookup_eq (C : AggClass σ ε) (Q : List (EventRecord σ ε))
    (inst : List (Nat × Aggregate σ)) (oid : Nat) :
    dlookup ((chunkByKey (fun r => r.object_id) (sortByIdVersion Q)).foldl
        (groupStep C) inst) oid
      = match (sortByIdVersion Q).filter (fun r => r.object_id == oid) with
        | [] => dlookup inst oid
        | r₀ :: rest =>
          some ((r₀ :: rest).foldl (applyRow C)
            (match dlookup inst oid with
             | some a => a
             | none => defaultAgg C oid)) := by
  have hpwle : (sortByIdVersion Q).Pairwise
      (fun a b : EventRecord σ ε => a.object_id ≤ b.object_id) :=
    (sortByKey_pairwise _ Q).imp (fun hab => by
      simp only [lexLe, Bool.or_eq_true, Bool.and_eq_true, decide_eq_true_eq,
        beq_iff_eq] at hab
      omega)
  have hheadsne : (chunkByKey (fun r => r.object_id) (sortByIdVersion Q)).Pairwise
      (fun g₁ g₂ => headKey (fun x : EventRecord σ ε => x.object_id) g₁
        ≠ headKey (fun x => x.object_id) g₂) :=
    (chunkByKey_heads_lt _ _ hpwle).imp (fun hab => Nat.ne_of_lt hab)
  cases hF : (sortByIdVersion Q).filter (fun r => r.object_id == oid) with
  | nil =>
    refine foldl_groupStep_not_mem C _ inst oid (fun g hg => ?_)
    intro hgoid
    have := chunk_filter_of_mem (fun r : EventRecord σ ε => r.object_id) _ hpwle g hg
    rw [hgoid, hF] at this
    exact chunkByKey_ne_nil _ _ g hg this.symm
  | cons r₀ rest =>
    have hr₀F : r₀ ∈ (sortByIdVersion Q).filter (fun r => r.object_id == oid) := by
      rw [hF]; exact List.mem_cons_self _ _
    rcases List.mem_filter.mp hr₀F with ⟨hr₀s, hr₀oid⟩
    have hr₀oid' : r₀.object_id = oid := beq_iff_eq.mp hr₀oid
    have hr₀fl : r₀ ∈ (chunkByKey (fun r : EventRecord σ ε => r.object_id)
        (sortByIdVersion Q)).flatten := by
      rw [chunkByKey_flatten]; exact hr₀s
    obtain ⟨g, hg, hr₀g⟩ := List.mem_flatten.mp hr₀fl
    have hgkey : headKey (fun r : EventRecord σ ε => r.object_id) g = oid := by
      rw [← chunkByKey_headKey_mem _ _ g hg r₀ hr₀g]
      exact hr₀oid'
    have hgeq : g = r₀ :: rest := by
      have := chunk_filter_of_mem (fun r : EventRecord σ ε => r.object_id) _ hpwle g hg
      rw [hgkey, hF] at this
      exact this.symm
    rw [hgeq] at hg
    have := foldl_groupStep_mem C _ inst r₀ rest hg hheadsne
    rw [hr₀oid'] at this
    exact this

theorem subQuery_eq_of_oid (ids : List Nat) (tsm : List (Nat × Nat))
    (r : EventRecord σ ε) (hmem : r.object_id ∈ ids) :
    subQuery ids tsm r
      = (match dlookup tsm r.object_id with
         | some t0 => decide (t0 < r.timestamp)
         | none => true) := by
  cases hcond : (match dlookup tsm r.object_id with
      | some t0 => decide (t0 < r.timestamp)
      | none => true) with
  | true =>
    apply List.any_eq_true.mpr
    refine ⟨r.object_id, hmem, ?_⟩
    have hb : (r.object_id == r.object_id) = true := beq_iff_eq.mpr rfl
    rw [hb, Bool.true_and]
    exact hcond
  | false =>
    rw [← Bool.not_eq_true]
    intro hany
    obtain ⟨x, hx, hxp⟩ := List.any_eq_true.mp hany
    rcases bool_and_split hxp with ⟨h1, h2⟩
    rw [beq_iff_eq.mp h1] at hcond
    rw [h2] at hcond
    simp at hcond

/-- Unfolding of `restore_many` for a non-empty id list. -/
theorem restore_many_eq (C : AggClass σ ε) (rows : List (EventRecord σ ε))
    (ids : List Nat) (T : Nat) (hne : ids.isEmpty = false) :
    restore_many C rows ids T =
      (chunkByKey (fun r => r.object_id) (sortByIdVersion (rows.filter (fun r =>
          subQuery ids (snapMaps (rows.filter (fun r' =>
            ids.contains r'.object_id && strStarts C.clsName r'.name
              && decide (r'.timestamp ≤ T) && recIsSnap r'))).1 r
            && strStarts C.clsName r.name && decide (r.timestamp ≤ T)
            && recIsEvent r)))).foldl (groupStep C)
        ((snapMaps (rows.filter (fun r' =>
            ids.contains r'.object_id && strStarts C.clsName r'.name
              && decide (r'.timestamp ≤ T) && recIsSnap r'))).2.map
          (fun p => (p.1, load_snapshot C p.2))) := by
  unfold restore_many
  rw [if_neg (by simp [hne])]

theorem filter_and_eq (p q : α → Bool) (l : List α) :
    (l.filter p).filter q = l.filter (fun a => p a && q a) := by
  induction l with
  | nil => rfl
  | cons x t ih =>
    cases hp : p x <;> cases hq : q x <;>
      simp [List.filter_cons, hp, hq, ih]

/-- The rows of one id in the snapshots query of `restore_many` are that id's
SNAPSHOT rows at or before the bound. -/
theorem snapshots_filter_proj (C : AggClass σ ε) (rows : List (EventRecord σ ε))
    (ids : List Nat) (T oid : Nat) (hmem : oid ∈ ids) :
    (rows.filter (fun r' =>
        ids.contains r'.object_id && strStarts C.clsName r'.name
          && decide (r'.timestamp ≤ T) && recIsSnap r')).filter
      (fun r => r.object_id == oid)
      = (snapRows C rows oid).filter (fun r => decide (r.timestamp ≤ T)) := by
  unfold snapRows
  rw [filter_and_eq, filter_and_eq]
  apply List.filter_congr
  intro r _
  simp only [snapFilter]
  by_cases h1 : r.object_id = oid
  · have hc : ids.contains r.object_id = true :=
      (contains_eq_true_iff ids r.object_id).mpr (by rw [h1]; exact hmem)
    have hb : (r.object_id == oid) = true := beq_iff_eq.mpr h1
    rw [hc, hb]
    cases strStarts C.clsName r.name <;> cases recIsSnap r
      <;> cases decide (r.timestamp ≤ T) <;> rfl
  · have hb : (r.object_id == oid) = false := by simpa using h1
    rw [hb]
    simp

/-- The rows of one id in the events query of `restore_many` are that id's
EVENT rows at or before the bound, restricted by its snapshot timestamp. -/
theorem events_filter_proj (C : AggClass σ ε) (rows : List (EventRecord σ ε))
    (ids : List Nat) (T oid : Nat) (tsm : List (Nat × Nat)) (hmem : oid ∈ ids) :
    (rows.filter (fun r =>
        subQuery ids tsm r && strStarts C.clsName r.name
          && decide (r.timestamp ≤ T) && recIsEvent r)).filter
      (fun r => r.object_id == oid)
      = (evRows C rows oid).filter (fun r =>
          decide (r.timestamp ≤ T)
            && (match dlookup tsm oid with
                | some t0 => decide (t0 < r.timestamp)
                | none => true)) := by
  unfold evRows
  rw [filter_and_eq, filter_and_eq]
  apply List.filter_congr
  intro r _
  simp only [evFilter]
  by_cases h1 : r.object_id = oid
  · have hrmem : r.object_id ∈ ids := by rw [h1]; exact hmem
    have hsub := subQuery_eq_of_oid ids tsm r hrmem
    rw [h1] at hsub
    rw [hsub]
    have hb : (r.object_id == oid) = true := beq_iff_eq.mpr h1
    rw [hb]
    cases hm : (match dlookup tsm oid with
        | some t0 => decide (t0 < r.timestamp)
        | none => true) <;>
      cases strStarts C.clsName r.name <;> cases recIsEvent r
        <;> cases decide (r.timestamp ≤ T) <;> rfl
  · have hb : (r.object_id == oid) = false := by simpa using h1
    rw [hb]
    simp

/-- The per-id slice of the globally sorted event query equals its unsorted
slice: both are strictly sorted by version and they are permutations. -/
theorem sorted_filter_oid_eq (Q R : List (EventRecord σ ε)) (oid : Nat)
    (hproj : Q.filter (fun r => r.object_id == oid) = R)
    (hR : R.Pairwise (fun a b => a.applied_to_version < b.applied_to_version)) :
    (sortByIdVersion Q).filter (fun r => r.object_id == oid) = R := by
  have hQperm : List.Perm ((sortByIdVersion Q).filter (fun r => r.object_id == oid))
      (Q.filter (fun r => r.object_id == oid)) :=
    (sortByKey_perm (fun r : EventRecord σ ε =>
      (r.object_id, r.applied_to_version)) Q).filter _
  have hperm2 : List.Perm
      ((sortByIdVersion Q).filter (fun r => r.object_id == oid)) R := by
    rw [hproj] at hQperm
    exact hQperm
  have hsortedle : ((sortByIdVersion Q).filter (fun r => r.object_id == oid)).Pairwise
      (fun a b => a.applied_to_version ≤ b.applied_to_version) := by
    have h1 : (sortByIdVersion Q).Pairwise (fun a b : EventRecord σ ε =>
        lexLe (a.object_id, a.applied_to_version)
          (b.object_id, b.applied_to_version) = true) :=
      sortByKey_pairwise _ Q
    refine List.Pairwise.imp_of_mem ?_ (h1.filter _)
    intro a b ha hb hab
    have ha' := beq_iff_eq.mp (List.mem_filter.mp ha).2
    have hb' := beq_iff_eq.mp (List.mem_filter.mp hb).2
    simp only [lexLe, Bool.or_eq_true, Bool.and_eq_true, decide_eq_true_eq,
      beq_iff_eq] at hab
    omega
  exact perm_pairwise_lt_eq (fun r => r.applied_to_version) hperm2
    (pairwise_ver_lt_of_perm hperm2.symm hR hsortedle) hR

/-- `restore_many` at any id that has at least one qualifying row, over any
store obeying the reachable-store discipline, returns the replay of that id's
event rows written at or before the bound. -/
theorem restore_many_lookup_spec (C : AggClass σ ε) [DecidableEq σ] [DecidableEq ε]
    (rows : List (EventRecord σ ε)) (ids : List Nat) (T oid : Nat)
    (hmem : oid ∈ ids) (hinv : oidInv C rows oid = true)
    (hqual : (∃ s ∈ snapRows C rows oid, s.timestamp ≤ T)
        ∨ (∃ r ∈ evRows C rows oid, r.timestamp ≤ T)) :
    dlookup (restore_many C rows ids T) oid
      = some (replay C oid
          ((evRows C rows oid).filter (fun r => decide (r.timestamp ≤ T)))) := by
  obtain ⟨hver, hts, hsts, hall⟩ := oidInv_parts hinv
  have hgetE : ∀ i (h : i < (evRows C rows oid).length),
      ((evRows C rows oid).get ⟨i, h⟩).applied_to_version = i := by
    intro i h; simpa using verChain_get _ 0 hver i h
  have hpw : (evRows C rows oid).Pairwise
      (fun a c => a.applied_to_version < c.applied_to_version) :=
    verChain_pairwise _ 0 hver
  have htsE := (tsChain_iff_pairwise (evRows C rows oid)).mp hts
  have hne : ids.isEmpty = false := by
    cases ids with
    | nil => simp at hmem
    | cons x' t' => rfl
  rw [restore_many_eq C rows ids T hne, chunk_lookup_eq]
  have hsnapproj := snapshots_filter_proj C rows ids T oid hmem
  have hsnm : dlookup (snapMaps (rows.filter (fun r' =>
      ids.contains r'.object_id && strStarts C.clsName r'.name
        && decide (r'.timestamp ≤ T) && recIsSnap r'))).2 oid
      = pickBest none ((snapRows C rows oid).filter
          (fun r => decide (r.timestamp ≤ T))) := by
    rw [snapMaps_lookup_snap, hsnapproj]
  have htsm := snapMaps_lookup_ts (rows.filter (fun r' =>
    ids.contains r'.object_id && strStarts C.clsName r'.name
      && decide (r'.timestamp ≤ T) && recIsSnap r')) oid
  have hinstlookup := dlookup_map_value (load_snapshot C)
    (snapMaps (rows.filter (fun r' =>
      ids.contains r'.object_id && strStarts C.clsName r'.name
        && decide (r'.timestamp ≤ T) && recIsSnap r'))).2 oid
  have hSqpw : ((snapRows C rows oid).filter
      (fun r => decide (r.timestamp ≤ T))).Pairwise
      (fun a b => a.timestamp < b.timestamp) :=
    ((tsChain_iff_pairwise _).mp hsts).filter _
  -- identify the sorted, filtered event rows of `oid`
  have hsorted_eq := sorted_filter_oid_eq
    (rows.filter (fun r =>
      subQuery ids (snapMaps (rows.filter (fun r' =>
        ids.contains r'.object_id && strStarts C.clsName r'.name
          && decide (r'.timestamp ≤ T) && recIsSnap r'))).1 r
        && strStarts C.clsName r.name && decide (r.timestamp ≤ T)
        && recIsEvent r))
    ((evRows C rows oid).filter (fun r =>
      decide (r.timestamp ≤ T)
        && (match dlookup (snapMaps (rows.filter (fun r' =>
              ids.contains r'.object_id && strStarts C.clsName r'.name
                && decide (r'.timestamp ≤ T) && recIsSnap r'))).1 oid with
            | some t0 => decide (t0 < r.timestamp)
            | none => true)))
    oid
    (events_filter_proj C rows ids T oid
      (snapMaps (rows.filter (fun r' =>
        ids.contains r'.object_id && strStarts C.clsName r'.name
          && decide (r'.timestamp ≤ T) && recIsSnap r'))).1 hmem)
    (hpw.filter _)
  rw [hsorted_eq]
  cases hSq : (snapRows C rows oid).filter (fun r => decide (r.timestamp ≤ T)) with
  | nil =>
    have hnone : dlookup (snapMaps (rows.filter (fun r' =>
        ids.contains r'.object_id && strStarts C.clsName r'.name
          && decide (r'.timestamp ≤ T) && recIsSnap r'))).2 oid = none := by
      rw [hsnm, hSq]; rfl
    have htsmnone : dlookup (snapMaps (rows.filter (fun r' =>
        ids.contains r'.object_id && strStarts C.clsName r'.name
          && decide (r'.timestamp ≤ T) && recIsSnap r'))).1 oid = none := by
      rw [htsm, hnone]; rfl
    have hinstnone : dlookup ((snapMaps (rows.filter (fun r' =>
        ids.contains r'.object_id && strStarts C.clsName r'.name
          && decide (r'.timestamp ≤ T) && recIsSnap r'))).2.map
        (fun p => (p.1, load_snapshot C p.2))) oid = none := by
      rw [hinstlookup, hnone]; rfl
    rw [htsmnone]
    have hdropT : ((evRows C rows oid).filter (fun r =>
        decide (r.timestamp ≤ T)
          && (match (none : Option Nat) with
              | some t0 => decide (t0 < r.timestamp)
              | none => true)))
        = (evRows C rows oid).filter (fun r => decide (r.timestamp ≤ T)) := by
      apply List.filter_congr
      intro r _
      show (decide (r.timestamp ≤ T) && true) = _
      rw [Bool.and_true]
    rw [hdropT]
    obtain ⟨r, hr, hrT⟩ : ∃ r ∈ evRows C rows oid, r.timestamp ≤ T := by
      rcases hqual with hl | hr
      · obtain ⟨s, hs, hsT⟩ := hl
        have : s ∈ (snapRows C rows oid).filter (fun r => decide (r.timestamp ≤ T)) :=
          List.mem_filter.mpr ⟨hs, decide_eq_true hsT⟩
        rw [hSq] at this
        simp at this
      · exact hr
    have hne' : (evRows C rows oid).filter (fun r => decide (r.timestamp ≤ T)) ≠ [] :=
      List.ne_nil_of_mem (List.mem_filter.mpr ⟨hr, decide_eq_true hrT⟩)
    cases hEf : (evRows C rows oid).filter (fun r => decide (r.timestamp ≤ T)) with
    | nil => exact absurd hEf hne'
    | cons r₀ rest =>
      rw [hinstnone]
      rfl
  | cons x t =>
    have hSqpw' : (x :: t).Pairwise (fun a b => a.timestamp < b.timestamp) := by
      rw [← hSq]; exact hSqpw
    have hsome : dlookup (snapMaps (rows.filter (fun r' =>
        ids.contains r'.object_id && strStarts C.clsName r'.name
          && decide (r'.timestamp ≤ T) && recIsSnap r'))).2 oid
        = some (t.getLastD x) := by
      rw [hsnm, hSq, pickBest_none_increasing _ hSqpw', getLast?_cons_eq]
    have hsmem : t.getLastD x ∈ (snapRows C rows oid).filter
        (fun r => decide (r.timestamp ≤ T)) := by
      rw [hSq]; exact getLastD_mem t x
    rcases List.mem_filter.mp hsmem with ⟨hsS, hsT'⟩
    have hsT : (t.getLastD x).timestamp ≤ T := of_decide_eq_true hsT'
    obtain ⟨_, hklen, hstate, htsrel⟩ := snapOK_parts (hall _ hsS)
    have htsmsome : dlookup (snapMaps (rows.filter (fun r' =>
        ids.contains r'.object_id && strStarts C.clsName r'.name
          && decide (r'.timestamp ≤ T) && recIsSnap r'))).1 oid
        = some (t.getLastD x).timestamp := by
      rw [htsm, hsome]; rfl
    have hinstsome : dlookup ((snapMaps (rows.filter (fun r' =>
        ids.contains r'.object_id && strStarts C.clsName r'.name
          && decide (r'.timestamp ≤ T) && recIsSnap r'))).2.map
        (fun p => (p.1, load_snapshot C p.2))) oid
        = some (load_snapshot C (t.getLastD x)) := by
      rw [hinstlookup, hsome]; rfl
    rw [htsmsome]
    obtain ⟨m, hmlen, hcut⟩ := exists_cut_ts T (evRows C rows oid) htsE
    have hEfilter : (evRows C rows oid).filter (fun r => decide (r.timestamp ≤ T))
        = (evRows C rows oid).take m :=
      filter_eq_take_of_iff _ _ m hcut
    have hkm : (t.getLastD x).applied_to_version ≤ m := by
      by_contra h'
      have hmk : m < (t.getLastD x).applied_to_version := by omega
      have hmE : m < (evRows C rows oid).length := Nat.lt_of_lt_of_le hmk hklen
      have h1 := (htsrel m hmE).1 hmk
      have h2 : (decide (((evRows C rows oid).get ⟨m, hmE⟩).timestamp ≤ T)) = true :=
        decide_eq_true (by omega)
      have := (hcut m hmE).mp h2
      omega
    have hgt : ((evRows C rows oid).filter (fun r =>
        decide (r.timestamp ≤ T)
          && (match (some (t.getLastD x).timestamp : Option Nat) with
              | some t0 => decide (t0 < r.timestamp)
              | none => true)))
        = ((evRows C rows oid).take m).drop (t.getLastD x).applied_to_version := by
      have hsplit2 : ((evRows C rows oid).filter (fun r => decide (r.timestamp ≤ T))).filter
          (fun r => decide ((t.getLastD x).timestamp < r.timestamp))
          = ((evRows C rows oid).take m).drop (t.getLastD x).applied_to_version := by
        rw [hEfilter]
        refine filter_eq_drop_of_iff _ _ (t.getLastD x).applied_to_version
          (fun i h => ?_)
        have hlen : i < (evRows C rows oid).length := by
          rw [List.length_take] at h; omega
        rw [get_take_eq _ m i h hlen]
        constructor
        · intro hd
          have hd' := of_decide_eq_true hd
          by_contra hki
          have := (htsrel i hlen).1 (by omega)
          omega
        · intro hki
          exact decide_eq_true ((htsrel i hlen).2 hki)
      rw [← hsplit2, filter_and_eq]
    rw [hgt]
    cases hdrop : ((evRows C rows oid).take m).drop (t.getLastD x).applied_to_version with
    | nil =>
      rw [hinstsome]
      have h1 : ((evRows C rows oid).take m).length ≤ (t.getLastD x).applied_to_version := by
        rw [← List.drop_eq_nil_iff_le]
        exact hdrop
      have htakeeq : (evRows C rows oid).take m
          = (evRows C rows oid).take (t.getLastD x).applied_to_version := by
        rw [List.length_take] at h1
        rcases Nat.le_total m (evRows C rows oid).length with hm | hm
        · have hk' : m = (t.getLastD x).applied_to_version := by omega
          rw [hk']
        · have hk' : (t.getLastD x).applied_to_version = (evRows C rows oid).length := by
            omega
          rw [List.take_of_length_le hm, hk', List.take_length]
      have hload : load_snapshot C (t.getLastD x)
          = replay C oid ((evRows C rows oid).take (t.getLastD x).applied_to_version) := by
        unfold load_snapshot
        rw [hstate]
      rw [hload, hEfilter, htakeeq]
    | cons r₀ rest =>
      rw [hinstsome]
      have hload : load_snapshot C (t.getLastD x)
          = replay C oid ((evRows C rows oid).take (t.getLastD x).applied_to_version) := by
        unfold load_snapshot
        rw [hstate]
      have htk : ((evRows C rows oid).take m).take (t.getLastD x).applied_to_version
          = (evRows C rows oid).take (t.getLastD x).applied_to_version := by
        rw [List.take_take]
        congr 1
        omega
      have hsplit : (evRows C rows oid).take m
          = (evRows C rows oid).take (t.getLastD x).applied_to_version
            ++ ((evRows C rows oid).take m).drop (t.getLastD x).applied_to_version := by
        rw [← htk, List.take_append_drop]
      show some ((r₀ :: rest).foldl (applyRow C) (load_snapshot C (t.getLastD x))) = _
      rw [hload, hEfilter]
      conv_rhs => rw [hsplit, hdrop]
      rw [show replay C oid ((evRows C rows oid).take (t.getLastD x).applied_to_version
          ++ r₀ :: rest)
        = (r₀ :: rest).foldl (applyRow C)
          (replay C oid ((evRows C rows oid).take (t.getLastD x).applied_to_version))
        from by unfold replay; rw [List.foldl_append]]

/-! ## Key-set bookkeeping for `restore_many` -/

/-- The key list of an association list. -/
def dkeys (m : List (Nat × β)) : List Nat := m.map Prod.fst

theorem dkeys_dinsert_mem (m : List (Nat × β)) (k : Nat) (v : β) :
    ∀ x ∈ dkeys (dinsert m k v), x = k ∨ x ∈ dkeys m := by
  induction m with
  | nil => intro x hx; simp [dinsert, dkeys] at hx; exact Or.inl hx
  | cons p rest ih =>
    obtain ⟨k₀, v₀⟩ := p
    intro x hx
    by_cases h : k₀ = k
    · subst h
      have hins : dinsert ((k₀, v₀) :: rest) k₀ v = (k₀, v) :: rest := by
        simp [dinsert]
      rw [hins] at hx
      simp only [dkeys, List.map_cons] at hx ⊢
      rcases List.mem_cons.mp hx with h' | h'
      · exact Or.inl h'
      · exact Or.inr (List.mem_cons_of_mem _ h')
    · have hb : (k₀ == k) = false := by simpa using h
      have hins : dinsert ((k₀, v₀) :: rest) k v = (k₀, v₀) :: dinsert rest k v := by
        simp [dinsert, hb]
      rw [hins] at hx
      simp only [dkeys, List.map_cons] at hx ⊢
      rcases List.mem_cons.mp hx with h' | h'
      · exact Or.inr (h' ▸ List.mem_cons_self _ _)
      · rcases ih x h' with h'' | h''
        · exact Or.inl h''
        · exact Or.inr (List.mem_cons_of_mem _ h'')

theorem dkeys_dinsert_nodup (m : List (Nat × β)) (k : Nat) (v : β)
    (h : (dkeys m).Nodup) : (dkeys (dinsert m k v)).Nodup := by
  induction m with
  | nil => simp [dinsert, dkeys]
  | cons p rest ih =>
    obtain ⟨k₀, v₀⟩ := p
    rcases List.nodup_cons.mp h with ⟨hk₀, hrest⟩
    by_cases hkk : k₀ = k
    · subst hkk
      simp only [dinsert, beq_self_eq_true, if_true]
      exact List.nodup_cons.mpr ⟨hk₀, hrest⟩
    · have hb : (k₀ == k) = false := by simpa using hkk
      simp only [dinsert, hb, Bool.false_eq_true, if_false]
      refine List.nodup_cons.mpr ⟨?_, ih hrest⟩
      intro hmem
      rcases dkeys_dinsert_mem rest k v k₀ hmem with h' | h'
      · exact hkk h'
      · exact hk₀ h'

theorem snapMaps_keys_nodup (l : List (EventRecord σ ε)) :
    (dkeys (snapMaps l).2).Nodup := by
  have main : ∀ (l : List (EventRecord σ ε))
      (m : List (Nat × Nat) × List (Nat × EventRecord σ ε)),
      (dkeys m.2).Nodup → (dkeys (l.foldl snapStep m).2).Nodup := by
    intro l
    induction l with
    | nil => intro m hm; exact hm
    | cons s t ih =>
      intro m hm
      refine ih (snapStep m s) ?_
      unfold snapStep
      cases dlookup m.1 s.object_id with
      | none => exact dkeys_dinsert_nodup _ _ _ hm
      | some t0 =>
        by_cases hgt : s.timestamp > t0
        · simp only [if_pos hgt]
          exact dkeys_dinsert_nodup _ _ _ hm
        · simp only [if_neg hgt]
          exact hm
  exact main l ([], []) List.nodup_nil

theorem dkeys_map_value (g : β → γ) (m : List (Nat × β)) :
    dkeys (m.map (fun p => (p.1, g p.2))) = dkeys m := by
  induction m with
  | nil => rfl
  | cons p rest ih =>
    simp only [dkeys] at ih
    simp [dkeys, ih]

theorem groupStep_keys_nodup (C : AggClass σ ε) (inst : List (Nat × Aggregate σ))
    (g : List (EventRecord σ ε)) (h : (dkeys inst).Nodup) :
    (dkeys (groupStep C inst g)).Nodup := by
  cases g with
  | nil => exact h
  | cons r g' => exact dkeys_dinsert_nodup _ _ _ h

theorem foldl_groupStep_keys_nodup (C : AggClass σ ε) :
    ∀ (gs : List (List (EventRecord σ ε))) (inst : List (Nat × Aggregate σ)),
      (dkeys inst).Nodup → (dkeys (gs.foldl (groupStep C) inst)).Nodup := by
  intro gs
  induction gs with
  | nil => intro inst h; exact h
  | cons g gs ih => intro inst h; exact ih _ (groupStep_keys_nodup C inst g h)

theorem pickBest_some_isSome :
    ∀ (l : List (EventRecord σ ε)) (c : EventRecord σ ε),
      (pickBest (some c) l).isSome = true := by
  intro l
  induction l with
  | nil => intro c; rfl
  | cons s t ih =>
    intro c
    by_cases h : s.timestamp > c.timestamp
    · simp only [pickBest, if_pos h]; exact ih s
    · simp only [pickBest, if_neg h]; exact ih c

theorem pickBest_none_isSome_iff (l : List (EventRecord σ ε)) :
    (pickBest none l).isSome = true ↔ l ≠ [] := by
  cases l with
  | nil => simp [pickBest]
  | cons x t =>
    constructor
    · intro _; simp
    · intro _
      show (pickBest (some x) t).isSome = true
      exact pickBest_some_isSome t x

theorem snapMaps_lookup_isSome_iff (l : List (EventRecord σ ε)) (k : Nat) :
    (dlookup (snapMaps l).2 k).isSome = true ↔ ∃ r ∈ l, r.object_id = k := by
  rw [snapMaps_lookup_snap, pickBest_none_isSome_iff]
  constructor
  · intro h
    cases hf : l.filter (fun r => r.object_id == k) with
    | nil => exact absurd hf h
    | cons r t =>
      have hr : r ∈ l.filter (fun r => r.object_id == k) := by
        rw [hf]; exact List.mem_cons_self _ _
      rcases List.mem_filter.mp hr with ⟨h1, h2⟩
      exact ⟨r, h1, beq_iff_eq.mp h2⟩
  · rintro ⟨r, hr, hrk⟩
    exact List.ne_nil_of_mem (List.mem_filter.mpr ⟨hr, beq_iff_eq.mpr hrk⟩)

theorem dlookup_dinsert_isSome (m : List (Nat × β)) (k' k : Nat) (v : β) :
    (dlookup (dinsert m k' v) k).isSome = true
      ↔ k' = k ∨ (dlookup m k).isSome = true := by
  by_cases h : k' = k
  · subst h
    rw [dlookup_dinsert_self]
    simp
  · rw [dlookup_dinsert_ne _ _ h]
    simp [h]

theorem foldl_groupStep_isSome_mono (C : AggClass σ ε) :
    ∀ (gs : List (List (EventRecord σ ε))) (inst : List (Nat × Aggregate σ)) (k : Nat),
      (dlookup inst k).isSome = true →
      (dlookup (gs.foldl (groupStep C) inst) k).isSome = true := by
  intro gs
  induction gs with
  | nil => intro inst k h; exact h
  | cons g gs ih =>
    intro inst k h
    refine ih _ k ?_
    cases g with
    | nil => exact h
    | cons r g' =>
      exact (dlookup_dinsert_isSome _ _ _ _).mpr (Or.inr h)

theorem foldl_groupStep_isSome_of_group (C : AggClass σ ε) :
    ∀ (gs : List (List (EventRecord σ ε))) (inst : List (Nat × Aggregate σ))
      (r : EventRecord σ ε) (g' : List (EventRecord σ ε)),
      (r :: g') ∈ gs →
      (dlookup (gs.foldl (groupStep C) inst) r.object_id).isSome = true := by
  intro gs
  induction gs with
  | nil => intro inst r g' hg; simp at hg
  | cons g₀ gs ih =>
    intro inst r g' hg
    rcases List.mem_cons.mp hg with h | h
    · subst h
      refine foldl_groupStep_isSome_mono C gs _ _ ?_
      exact (dlookup_dinsert_isSome _ _ _ _).mpr (Or.inl rfl)
    · exact ih _ r g' h

theorem foldl_groupStep_isSome_inv (C : AggClass σ ε) :
    ∀ (gs : List (List (EventRecord σ ε))) (inst : List (Nat × Aggregate σ)) (k : Nat),
      (dlookup (gs.foldl (groupStep C) inst) k).isSome = true →
      (dlookup inst k).isSome = true
        ∨ ∃ g ∈ gs, ∃ r g', g = r :: g' ∧ r.object_id = k := by
  intro gs
  induction gs with
  | nil => intro inst k h; exact Or.inl h
  | cons g₀ gs ih =>
    intro inst k h
    rcases ih _ k h with h' | ⟨g, hg, r, g', hgr, hrk⟩
    · cases hg₀ : g₀ with
      | nil => rw [hg₀] at h'; exact Or.inl h'
      | cons r g' =>
        rw [hg₀] at h'
        rcases (dlookup_dinsert_isSome _ _ _ _).mp h' with h'' | h''
        · exact Or.inr ⟨r :: g', List.mem_cons_self _ _, r, g', rfl, h''⟩
        · exact Or.inl h''
    · exact Or.inr ⟨g, List.mem_cons_of_mem _ hg, r, g', hgr, hrk⟩

/-- Membership in the snapshots query of `restore_many`, per id. -/
theorem mem_snapshots_iff (C : AggClass σ ε) (rows : List (EventRecord σ ε))
    (ids : List Nat) (T k : Nat) (r : EventRecord σ ε) (hk : r.object_id = k) :
    r ∈ rows.filter (fun r' =>
        ids.contains r'.object_id && strStarts C.clsName r'.name
          && decide (r'.timestamp ≤ T) && recIsSnap r')
      ↔ k ∈ ids ∧ r ∈ snapRows C rows k ∧ r.timestamp ≤ T := by
  constructor
  · intro h
    rcases List.mem_filter.mp h with ⟨hrows, hpred⟩
    rcases bool_and_split hpred with ⟨h123, hsnap⟩
    rcases bool_and_split h123 with ⟨h12, hts⟩
    rcases bool_and_split h12 with ⟨hcont, hpre⟩
    refine ⟨?_, ?_, of_decide_eq_true hts⟩
    · rw [← hk]; exact (contains_eq_true_iff _ _).mp hcont
    · refine List.mem_filter.mpr ⟨hrows, ?_⟩
      unfold snapFilter
      exact bool_and_mk (bool_and_mk (beq_iff_eq.mpr hk) hpre) hsnap
  · rintro ⟨hkids, hrS, hrT⟩
    rcases List.mem_filter.mp hrS with ⟨hrows, hsf⟩
    rcases bool_and_split hsf with ⟨h12, hsnap⟩
    rcases bool_and_split h12 with ⟨_, hpre⟩
    refine List.mem_filter.mpr ⟨hrows, ?_⟩
    refine bool_and_mk (bool_and_mk (bool_and_mk ?_ hpre) (decide_eq_true hrT)) hsnap
    exact (contains_eq_true_iff _ _).mpr (by rw [hk]; exact hkids)

theorem isSome_map_iff (f : β → γ) (o : Option β) :
    ((o.map f).isSome = true) ↔ (o.isSome = true) := by
  cases o <;> simp

theorem objects_create_ev (st : Store σ ε) (nm : String) (oidv ver : Nat) (e : ε) :
    objects_create st nm oidv ver (.ev e)
      = if (st.rows.any (fun r' => recIsEvent r' && (r'.object_id == oidv)
            && (r'.applied_to_version == ver))) = true then Except.error DBErr.integrity
        else Except.ok ⟨st.rows ++ [⟨nm, oidv, ver, .ev e, st.clock⟩],
          st.clock + 1⟩ := rfl

theorem trigger_event_ok_spec (C : AggClass σ ε) (inTx : Bool) (st : Store σ ε)
    (a : Aggregate σ) (e : ε) (st' : Store σ ε) (a' : Aggregate σ)
    (h : trigger_event C inTx st a e = (Except.ok (), st', a')) :
    st'.rows = st.rows
        ++ [{ name := C.evName e, object_id := a.id, applied_to_version := a.version,
              state := .ev e, timestamp := st.clock }]
      ∧ a' = Aggregate.apply C a e
      ∧ (st.rows.any (fun r' => recIsEvent r' && (r'.object_id == a.id)
          && (r'.applied_to_version == a.version))) = false
      ∧ st'.clock = st.clock + 1 := by
  unfold trigger_event at h
  cases inTx with
  | false => simp at h
  | true =>
    rw [if_neg (by decide)] at h
    by_cases hv : (a.version != C.evVersion e) = true
    · rw [if_pos hv] at h
      simp at h
    · rw [if_neg hv, objects_create_ev] at h
      by_cases hchk : (st.rows.any (fun r' => recIsEvent r' && (r'.object_id == a.id)
          && (r'.applied_to_version == a.version))) = true
      · rw [if_pos hchk] at h
        simp at h
      · rw [if_neg hchk] at h
        simp only [Prod.mk.injEq] at h
        obtain ⟨-, h2, h3⟩ := h
        refine ⟨?_, h3.symm, by simpa using hchk, ?_⟩
        · rw [← h2]
        · rw [← h2]

/-- `snapshot` always succeeds and appends one SNAPSHOT row (no
transaction check, no constraint on SNAPSHOT rows). -/
theorem snapshot_eq (C : AggClass σ ε) (inTx : Bool) (st : Store σ ε)
    (a : Aggregate σ) :
    snapshot C inTx st a
      = Except.ok ⟨st.rows ++ [⟨C.clsName, a.id, a.version, .snap a, st.clock⟩],
          st.clock + 1⟩ := rfl

/-- The part of `restore_many`'s key-set behaviour that does hold: keys are
unique, and a key is present exactly when it is an input id with at least one
qualifying SNAPSHOT or EVENT row. -/
theorem restore_many_key_characterization (C : AggClass σ ε)
    (rows : List (EventRecord σ ε)) (ids : List Nat) (T oid : Nat) :
    (dkeys (restore_many C rows ids T)).Nodup
      ∧ ((dlookup (restore_many C rows ids T) oid).isSome = true
        ↔ oid ∈ ids
          ∧ ((∃ s ∈ snapRows C rows oid, s.timestamp ≤ T)
            ∨ ∃ r ∈ evRows C rows oid, r.timestamp ≤ T)) := by
  cases ids with
  | nil =>
    have hemp : restore_many C rows [] T = [] := rfl
    rw [hemp]
    constructor
    · exact List.nodup_nil
    · constructor
      · intro h; simp [dlookup] at h
      · rintro ⟨hmem, _⟩; simp at hmem
  | cons i0 it =>
    rw [restore_many_eq C rows (i0 :: it) T rfl]
    constructor
    · apply foldl_groupStep_keys_nodup
      rw [dkeys_map_value]
      exact snapMaps_keys_nodup _
    · constructor
      · intro h
        rcases foldl_groupStep_isSome_inv C _ _ _ h with hinst | ⟨g, hg, r, g', hgr, hrk⟩
        · rw [dlookup_map_value, isSome_map_iff] at hinst
          obtain ⟨r, hr, hrk⟩ := (snapMaps_lookup_isSome_iff _ oid).mp hinst
          obtain ⟨hid, hrS, hrT⟩ := (mem_snapshots_iff C rows (i0 :: it) T oid r hrk).mp hr
          exact ⟨hid, Or.inl ⟨r, hrS, hrT⟩⟩
        · have hrg : r ∈ g := by rw [hgr]; exact List.mem_cons_self _ _
          have hrs : r ∈ (chunkByKey (fun r : EventRecord σ ε => r.object_id)
              (sortByIdVersion (rows.filter (fun r =>
                subQuery (i0 :: it) (snapMaps (rows.filter (fun r' =>
                  (i0 :: it).contains r'.object_id && strStarts C.clsName r'.name
                    && decide (r'.timestamp ≤ T) && recIsSnap r'))).1 r
                  && strStarts C.clsName r.name && decide (r.timestamp ≤ T)
                  && recIsEvent r)))).flatten :=
            List.mem_flatten.mpr ⟨g, hg, hrg⟩
          rw [chunkByKey_flatten] at hrs
          have hrQ := (sortByKey_perm (fun r : EventRecord σ ε =>
            (r.object_id, r.applied_to_version)) _).mem_iff.mp hrs
          rcases List.mem_filter.mp hrQ with ⟨hrows, hpred⟩
          rcases bool_and_split hpred with ⟨h123, hev⟩
          rcases bool_and_split h123 with ⟨h12, hts⟩
          rcases bool_and_split h12 with ⟨hsub, hpre⟩
          obtain ⟨x, hx, hxp⟩ := List.any_eq_true.mp hsub
          rcases bool_and_split hxp with ⟨hbx, _⟩
          have hxoid : x = oid := by rw [← beq_iff_eq.mp hbx, hrk]
          refine ⟨hxoid ▸ hx, Or.inr ⟨r, ?_, of_decide_eq_true hts⟩⟩
          refine List.mem_filter.mpr ⟨hrows, ?_⟩
          unfold evFilter
          exact bool_and_mk (bool_and_mk (beq_iff_eq.mpr hrk) hpre) hev
      · rintro ⟨hmem, hqual⟩
        by_cases hsnap : ∃ s ∈ snapRows C rows oid, s.timestamp ≤ T
        · obtain ⟨s, hsS, hsT⟩ := hsnap
          have hsoid : s.object_id = oid := by
            rcases bool_and_split (List.mem_filter.mp hsS).2 with ⟨h12, _⟩
            rcases bool_and_split h12 with ⟨h1, _⟩
            exact beq_iff_eq.mp h1
          apply foldl_groupStep_isSome_mono
          rw [dlookup_map_value, isSome_map_iff]
          exact (snapMaps_lookup_isSome_iff _ oid).mpr
            ⟨s, (mem_snapshots_iff C rows (i0 :: it) T oid s hsoid).mpr
              ⟨hmem, hsS, hsT⟩, hsoid⟩
        · rcases hqual with hl | ⟨r, hrE, hrT⟩
          · exact absurd hl hsnap
          · have hsnone : dlookup (snapMaps (rows.filter (fun r' =>
                (i0 :: it).contains r'.object_id && strStarts C.clsName r'.name
                  && decide (r'.timestamp ≤ T) && recIsSnap r'))).2 oid = none := by
              cases ho : dlookup (snapMaps (rows.filter (fun r' =>
                  (i0 :: it).contains r'.object_id && strStarts C.clsName r'.name
                    && decide (r'.timestamp ≤ T) && recIsSnap r'))).2 oid with
              | none => rfl
              | some s' =>
                exfalso
                have hi : (dlookup (snapMaps (rows.filter (fun r' =>
                    (i0 :: it).contains r'.object_id && strStarts C.clsName r'.name
                      && decide (r'.timestamp ≤ T) && recIsSnap r'))).2 oid).isSome
                    = true := by rw [ho]; rfl
                obtain ⟨r', hr', hrk'⟩ := (snapMaps_lookup_isSome_iff _ oid).mp hi
                obtain ⟨_, hrS', hrT'⟩ :=
                  (mem_snapshots_iff C rows (i0 :: it) T oid r' hrk').mp hr'
                exact hsnap ⟨r', hrS', hrT'⟩
            have htsmn : dlookup (snapMaps (rows.filter (fun r' =>
                (i0 :: it).contains r'.object_id && strStarts C.clsName r'.name
                  && decide (r'.timestamp ≤ T) && recIsSnap r'))).1 oid = none := by
              rw [snapMaps_lookup_ts, hsnone]; rfl
            rcases List.mem_filter.mp hrE with ⟨hrows, hef⟩
            rcases bool_and_split hef with ⟨h12, hev⟩
            rcases bool_and_split h12 with ⟨hbo, hpre⟩
            have hroid : r.object_id = oid := beq_iff_eq.mp hbo
            have hsubq : subQuery (i0 :: it) (snapMaps (rows.filter (fun r' =>
                (i0 :: it).contains r'.object_id && strStarts C.clsName r'.name
                  && decide (r'.timestamp ≤ T) && recIsSnap r'))).1 r = true := by
              rw [subQuery_eq_of_oid _ _ r (by rw [hroid]; exact hmem), hroid, htsmn]
            have hrQ : r ∈ rows.filter (fun r =>
                subQuery (i0 :: it) (snapMaps (rows.filter (fun r' =>
                  (i0 :: it).contains r'.object_id && strStarts C.clsName r'.name
                    && decide (r'.timestamp ≤ T) && recIsSnap r'))).1 r
                  && strStarts C.clsName r.name && decide (r.timestamp ≤ T)
                  && recIsEvent r) :=
              List.mem_filter.mpr ⟨hrows, bool_and_mk (bool_and_mk
                (bool_and_mk hsubq hpre) (decide_eq_true hrT)) hev⟩
            have hrs : r ∈ sortByIdVersion (rows.filter (fun r =>
                subQuery (i0 :: it) (snapMaps (rows.filter (fun r' =>
                  (i0 :: it).contains r'.object_id && strStarts C.clsName r'.name
                    && decide (r'.timestamp ≤ T) && recIsSnap r'))).1 r
                  && strStarts C.clsName r.name && decide (r.timestamp ≤ T)
                  && recIsEvent r)) :=
              (sortByKey_perm (fun r : EventRecord σ ε =>
                (r.object_id, r.applied_to_version)) _).mem_iff.mpr hrQ
            have hrfl : r ∈ (chunkByKey (fun r : EventRecord σ ε => r.object_id)
                (sortByIdVersion (rows.filter (fun r =>
                  subQuery (i0 :: it) (snapMaps (rows.filter (fun r' =>
                    (i0 :: it).contains r'.object_id && strStarts C.clsName r'.name
                      && decide (r'.timestamp ≤ T) && recIsSnap r'))).1 r
                    && strStarts C.clsName r.name && decide (r.timestamp ≤ T)
                    && recIsEvent r)))).flatten := by
              rw [chunkByKey_flatten]
              exact hrs
            obtain ⟨g, hg, hrg⟩ := List.mem_flatten.mp hrfl
            have hgne := chunkByKey_ne_nil _ _ g hg
            cases hgdec : g with
            | nil => exact absurd hgdec hgne
            | cons rh g' =>
              have h1 := chunkByKey_headKey_mem _ _ g hg r hrg
              have h2 := chunkByKey_headKey_mem _ _ g hg rh
                (by rw [hgdec]; exact List.mem_cons_self _ _)
              have hkey : rh.object_id = oid := by
                rw [h2, ← h1, hroid]
              have hres := foldl_groupStep_isSome_of_group C _
                ((snapMaps (rows.filter (fun r' =>
                  (i0 :: it).contains r'.object_id && strStarts C.clsName r'.name
                    && decide (r'.timestamp ≤ T) && recIsSnap r'))).2.map
                  (fun p => (p.1, load_snapshot C p.2))) rh g' (hgdec ▸ hg)
              rw [hkey] at hres
              exact hres

/-- Running a list of `trigger_event` calls in sequence, stopping at the
first raised error (the exception propagates to the caller). -/
def runEvents (C : AggClass σ ε) (inTx : Bool) :
    Store σ ε → Aggregate σ → List ε → Except TxErr Unit × Store σ ε × Aggregate σ
  | st, a, [] => (.ok (), st, a)
  | st, a, e :: es =>
    match trigger_event C inTx st a e with
    | (.ok (), st', a') => runEvents C inTx st' a' es
    | other => other

/-- The stores reachable from an empty table by the two mutating operations
(under any transaction state, aggregates and events). -/
inductive Reachable (C : AggClass σ ε) : Store σ ε → Prop where
  | init : Reachable C ⟨[], 0⟩
  | evStep (inTx : Bool) (st : Store σ ε) (a : Aggregate σ) (e : ε)
      (st' : Store σ ε) (a' : Aggregate σ) :
      Reachable C st → trigger_event C inTx st a e = (Except.ok (), st', a') →
      Reachable C st'
  | snapStepR (inTx : Bool) (st : Store σ ε) (a : Aggregate σ) (st' : Store σ ε) :
      Reachable C st → snapshot C inTx st a = Except.ok st' →
      Reachable C st'

/-- Two rows violate the partial unique constraint if both are EVENT rows with
the same `(object_id, applied_to_version)` pair; this relation says they do
not. -/
def EvKeyDistinct (r r' : EventRecord σ ε) : Prop :=
  recIsEvent r = true → recIsEvent r' = true →
    ¬(r.object_id = r'.object_id ∧ r.applied_to_version = r'.applied_to_version)

/-- Guard for `restore` with `version=0`: Python truthiness sends the call
into the timestamp branch with `timestamp=None`, which Django rejects. -/
theorem restore_version_zero (C : AggClass σ ε) (rows : List (EventRecord σ ε))
    (oid : Nat) : restore C rows oid (some 0) none = .error .noneQuery := rfl

/-! ## The claims -/

/-- Claim C3: each successful `trigger_event` call appends exactly one
EventRecord row whose `applied_to_version` equals the aggregate's version
before the call, invokes `event.apply`, and increments the version by exactly
one; hence after `N` successful calls starting at version `v0` the aggregate's
version is `v0 + N`.  (The events' `apply` methods mutate domain fields, not
the `version` field, as in the source's event classes.) -/
theorem claim_C3 (C : AggClass σ ε)
    (hvp : ∀ (e : ε) (a : Aggregate σ), (C.evApply e a).version = a.version) :
    (∀ (st : Store σ ε) (a : Aggregate σ) (e : ε) (st' : Store σ ε)
        (a' : Aggregate σ),
      trigger_event C true st a e = (Except.ok (), st', a') →
      st'.rows = st.rows ++ [⟨C.evName e, a.id, a.version, .ev e, st.clock⟩]
        ∧ a' = Aggregate.apply C a e ∧ a'.version = a.version + 1)
    ∧ ∀ (st : Store σ ε) (a : Aggregate σ) (es : List ε) (st' : Store σ ε)
        (a' : Aggregate σ),
      runEvents C true st a es = (Except.ok (), st', a') →
      a'.version = a.version + es.length := by
  have single : ∀ (st : Store σ ε) (a : Aggregate σ) (e : ε) (st' : Store σ ε)
      (a' : Aggregate σ),
      trigger_event C true st a e = (Except.ok (), st', a') →
      st'.rows = st.rows ++ [⟨C.evName e, a.id, a.version, .ev e, st.clock⟩]
        ∧ a' = Aggregate.apply C a e ∧ a'.version = a.version + 1 := by
    intro st a e st' a' h
    obtain ⟨h1, h2, -, -⟩ := trigger_event_ok_spec C true st a e st' a' h
    refine ⟨h1, h2, ?_⟩
    rw [h2]
    show (C.evApply e a).version + 1 = a.version + 1
    rw [hvp]
  refine ⟨single, ?_⟩
  intro st a es
  induction es generalizing st a with
  | nil =>
    intro st' a' h
    simp only [runEvents, Prod.mk.injEq] at h
    obtain ⟨-, -, h3⟩ := h
    rw [← h3]
    exact rfl
  | cons e es ih =>
    intro st' a' h
    simp only [runEvents] at h
    rcases htr : trigger_event C true st a e with ⟨res, st₁, a₁⟩
    rw [htr] at h
    cases res with
    | ok u =>
      cases u
      have hstep := single st a e st₁ a₁ htr
      have hver := ih st₁ a₁ st' a' h
      rw [hver, hstep.2.2, List.length_cons]
      omega
    | error err => simp at h

theorem claim_C3_witness :
    ((runEvents OC true ⟨[], 0⟩ ⟨5, 0, 0⟩
        [OEv.created 0 100, OEv.payment 1 30]).2.2).version = 0 + 2 :=
  (claim_C3 OC (fun e a => by cases e <;> rfl)).2 ⟨[], 0⟩ ⟨5, 0, 0⟩
    [OEv.created 0 100, OEv.payment 1 30]
    (runEvents OC true ⟨[], 0⟩ ⟨5, 0, 0⟩ [OEv.created 0 100, OEv.payment 1 30]).2.1
    (runEvents OC true ⟨[], 0⟩ ⟨5, 0, 0⟩ [OEv.created 0 100, OEv.payment 1 30]).2.2
    (by rfl)

/-- Claim C4: inside an atomic unit of work, `trigger_event` raises the
version-mismatch error exactly when the aggregate's version differs from the
event's version; when they agree this error is never raised. -/
theorem claim_C4 (C : AggClass σ ε) (st : Store σ ε) (a : Aggregate σ) (e : ε) :
    (trigger_event C true st a e).1 = Except.error TxErr.versionConflict
      ↔ a.version ≠ C.evVersion e := by
  unfold trigger_event
  rw [if_neg (by decide)]
  by_cases hv : a.version = C.evVersion e
  · have hb : (a.version != C.evVersion e) = false := by simp [hv]
    rw [hb, if_neg (by simp)]
    constructor
    · intro h
      exfalso
      cases hoc : objects_create st (C.evName e) a.id a.version (.ev e) with
      | error err => rw [hoc] at h; simp at h
      | ok st₂ => rw [hoc] at h; simp at h
    · intro h; exact absurd hv h
  · have hb : (a.version != C.evVersion e) = true := by simp [hv]
    rw [hb, if_pos rfl]
    simp [hv]

/-- Claim C8 counterexample: `snapshot` invoked with no active transaction
does not raise `TransactionRequired` — it succeeds and writes its row. -/
theorem claim_C8_counterexample :
    snapshot OC false ⟨[], 0⟩ ⟨5, 2, 7⟩
      = Except.ok ⟨[⟨"Order", 5, 2, RecState.snap ⟨5, 2, 7⟩, 0⟩], 1⟩ := rfl

/-- Claim C8 (amended): `trigger_event` raises `TransactionRequired` outside
an atomic unit of work, before any side effect; `snapshot` performs no
transaction check at all — it appends its SNAPSHOT row whatever the ambient
transaction state is. -/
theorem claim_C8_amended (C : AggClass σ ε) :
    (∀ (st : Store σ ε) (a : Aggregate σ) (e : ε),
      trigger_event C false st a e = (Except.error TxErr.transactionRequired, st, a))
      ∧ ∀ (inTx : Bool) (st : Store σ ε) (a : Aggregate σ),
          snapshot C inTx st a
            = Except.ok ⟨st.rows ++ [⟨C.clsName, a.id, a.version, .snap a, st.clock⟩],
                st.clock + 1⟩ :=
  ⟨fun _ _ _ => rfl, fun inTx st a => snapshot_eq C inTx st a⟩

/-- Claim C10: when `trigger_event` raises because no transaction is active or
because of a version conflict, no EventRecord row has been written and the
in-memory aggregate is unchanged — both checks precede the append and the
apply. -/
theorem claim_C10 (C : AggClass σ ε) (inTx : Bool) (st : Store σ ε)
    (a : Aggregate σ) (e : ε)
    (h : (trigger_event C inTx st a e).1 = Except.error TxErr.transactionRequired
      ∨ (trigger_event C inTx st a e).1 = Except.error TxErr.versionConflict) :
    (trigger_event C inTx st a e).2.1 = st ∧ (trigger_event C inTx st a e).2.2 = a := by
  cases inTx with
  | false => exact ⟨rfl, rfl⟩
  | true =>
    unfold trigger_event at h ⊢
    rw [if_neg (by decide)] at h ⊢
    by_cases hv : (a.version != C.evVersion e) = true
    · rw [if_pos hv] at h ⊢
      exact ⟨rfl, rfl⟩
    · rw [if_neg hv] at h ⊢
      cases hoc : objects_create st (C.evName e) a.id a.version (.ev e) with
      | error err =>
        rw [hoc] at h
        rcases h with h | h <;> simp at h
      | ok st₂ =>
        rw [hoc] at h
        rcases h with h | h <;> simp at h

theorem claim_C10_witness :
    (trigger_event OC true ⟨[], 0⟩ ⟨5, 0, 0⟩ (OEv.payment 3 10)).2.1 = ⟨[], 0⟩
      ∧ (trigger_event OC true ⟨[], 0⟩ ⟨5, 0, 0⟩ (OEv.payment 3 10)).2.2 = ⟨5, 0, 0⟩ :=
  claim_C10 OC true ⟨[], 0⟩ ⟨5, 0, 0⟩ (OEv.payment 3 10) (Or.inr rfl)

/-- The snapshots queryset is sorted ascending by `applied_to_version`
before any bound filter, so the rows it returns are pairwise nondecreasing
in that column. -/
theorem sortByVersion_pairwise_le (l : List (EventRecord σ ε)) :
    (sortByVersion l).Pairwise
      (fun a b => a.applied_to_version ≤ b.applied_to_version) := by
  have hle := sortByKey_pairwise (fun r : EventRecord σ ε => (r.applied_to_version, 0)) l
  exact hle.imp (fun {a b} hab => by
    simp only [lexLe, Bool.or_eq_true, Bool.and_eq_true, decide_eq_true_eq,
      beq_iff_eq] at hab
    omega)

theorem snapshotQuery_ok_pairwise_le (C : AggClass σ ε)
    (rows : List (EventRecord σ ε)) (oid : Nat) (version timestamp : Option Nat)
    (qs : List (EventRecord σ ε))
    (hq : snapshotQuery C rows oid version timestamp = Except.ok qs) :
    qs.Pairwise (fun a b => a.applied_to_version ≤ b.applied_to_version) := by
  unfold snapshotQuery at hq
  by_cases ht : truthy version = true
  · rw [if_pos ht] at hq
    cases Except.ok.inj hq
    exact (sortByVersion_pairwise_le _).filter _
  · rw [if_neg ht] at hq
    cases timestamp with
    | none => exact absurd hq (by simp)
    | some t =>
      cases Except.ok.inj hq
      exact (sortByVersion_pairwise_le _).filter _

/-- A SNAPSHOT row never passes the EVENT-side filter of `restore`. -/
theorem evFilter_eq_false_of_snap (C : AggClass σ ε) (oid : Nat)
    (s : EventRecord σ ε) (h : recIsSnap s = true) : evFilter C oid s = false := by
  unfold evFilter recIsEvent
  unfold recIsSnap at h
  cases hst : s.state with
  | ev e => rw [hst] at h; simp at h
  | snap a => simp

/-- Removing one snapshot row from a store keeps the reachable-store
discipline: the EVENT rows are untouched and the remaining SNAPSHOT rows are
a sublist of the old ones. -/
theorem oidInv_remove_snap (C : AggClass σ ε) [DecidableEq σ] [DecidableEq ε]
    (pre post : List (EventRecord σ ε)) (s : EventRecord σ ε) (oid : Nat)
    (hse : evFilter C oid s = false)
    (hinv : oidInv C (pre ++ s :: post) oid = true) :
    oidInv C (pre ++ post) oid = true := by
  obtain ⟨hver, hts, hsts, hall⟩ := oidInv_parts hinv
  have hE : evRows C (pre ++ post) oid = evRows C (pre ++ s :: post) oid := by
    simp [evRows, List.filter_append, List.filter_cons, hse]
  have hsub : List.Sublist (snapRows C (pre ++ post) oid)
      (snapRows C (pre ++ s :: post) oid) := by
    unfold snapRows
    rw [List.filter_append, List.filter_append]
    refine List.Sublist.append (List.Sublist.refl _) ?_
    rw [List.filter_cons]
    by_cases hp : snapFilter C oid s = true
    · rw [if_pos hp]
      exact List.sublist_cons_self _ _
    · rw [if_neg hp]
  have hsts' : tsChain (snapRows C (pre ++ post) oid) = true :=
    (tsChain_iff_pairwise _).mpr
      (List.Pairwise.sublist hsub ((tsChain_iff_pairwise _).mp hsts))
  have hall' : ∀ t ∈ snapRows C (pre ++ post) oid,
      snapOK C oid (evRows C (pre ++ post) oid) t = true := by
    intro t ht
    rw [hE]
    exact hall t (hsub.subset ht)
  unfold oidInv
  refine bool_and_mk (bool_and_mk (bool_and_mk ?_ ?_) hsts') ?_
  · rw [hE]; exact hver
  · rw [hE]; exact hts
  · exact List.all_eq_true.mpr hall'

/-- Claim C1 counterexample: with two qualifying SNAPSHOT rows at versions 1
and 2 (both at most the bound 5), the query sorts ascending by
`applied_to_version` and `.first()` picks the version-1 row — the OLDEST, not
the newest — and `restore` deserializes that older row as its starting
accumulator. -/
theorem claim_C1_counterexample :
    snapshotQuery OC [⟨"Order", 5, 2, RecState.snap ⟨5, 2, 20⟩, 4⟩,
        ⟨"Order", 5, 1, RecState.snap ⟨5, 1, 10⟩, 3⟩] 5 (some 5) none
        = Except.ok [⟨"Order", 5, 1, RecState.snap ⟨5, 1, 10⟩, 3⟩,
            ⟨"Order", 5, 2, RecState.snap ⟨5, 2, 20⟩, 4⟩]
      ∧ selectedSnapshot OC [⟨"Order", 5, 2, RecState.snap ⟨5, 2, 20⟩, 4⟩,
            ⟨"Order", 5, 1, RecState.snap ⟨5, 1, 10⟩, 3⟩] 5 (some 5) none
          = Except.ok (some ⟨"Order", 5, 1, RecState.snap ⟨5, 1, 10⟩, 3⟩)
      ∧ restore OC [⟨"Order", 5, 2, RecState.snap ⟨5, 2, 20⟩, 4⟩,
            ⟨"Order", 5, 1, RecState.snap ⟨5, 1, 10⟩, 3⟩] 5 (some 5) none
          = Except.ok ⟨5, 1, 10⟩ :=
  ⟨rfl, rfl, rfl⟩

/-- Claim C1 (amended): `restore` starts its fold from the OLDEST qualifying
snapshot row — the queryset is ordered ascending by `applied_to_version` and
`.first()` takes its head, so the selected row's `applied_to_version` is
minimal among all qualifying SNAPSHOT rows, and the fold starts from its
deserialization. -/
theorem claim_C1_amended (C : AggClass σ ε) (rows : List (EventRecord σ ε))
    (oid : Nat) (version timestamp : Option Nat)
    (qs events : List (EventRecord σ ε)) (s : EventRecord σ ε)
    (hguard : (version.isNone == timestamp.isNone) = false)
    (hq : snapshotQuery C rows oid version timestamp = Except.ok qs)
    (he : eventQuery C rows oid version timestamp = Except.ok events)
    (hs : qs.head? = some s) :
    (∀ r ∈ qs, s.applied_to_version ≤ r.applied_to_version)
      ∧ restore C rows oid version timestamp
          = Except.ok ((events.filter
              (fun r => s.applied_to_version ≤ r.applied_to_version)).foldl
            (applyRow C) (load_snapshot C s)) := by
  have hpw := snapshotQuery_ok_pairwise_le C rows oid version timestamp qs hq
  constructor
  · intro r hr
    cases qs with
    | nil => simp at hs
    | cons q t =>
      have hsq : q = s := by
        rw [List.head?_cons] at hs
        exact Option.some.inj hs
      rcases List.mem_cons.mp hr with hrq | hrt
      · rw [hrq, ← hsq]
      · have hqr := (List.pairwise_cons.mp hpw).1 r hrt
        rw [← hsq]
        exact hqr
  · rw [restore_eq_ok C rows oid version timestamp qs events hguard hq he, hs]

theorem claim_C1_amended_witness :
    restore OC [⟨"Order", 5, 2, RecState.snap ⟨5, 2, 20⟩, 4⟩,
        ⟨"Order", 5, 1, RecState.snap ⟨5, 1, 10⟩, 3⟩] 5 (some 5) none
      = Except.ok ⟨5, 1, 10⟩ :=
  (claim_C1_amended OC
    [⟨"Order", 5, 2, RecState.snap ⟨5, 2, 20⟩, 4⟩,
     ⟨"Order", 5, 1, RecState.snap ⟨5, 1, 10⟩, 3⟩] 5 (some 5) none
    [⟨"Order", 5, 1, RecState.snap ⟨5, 1, 10⟩, 3⟩,
     ⟨"Order", 5, 2, RecState.snap ⟨5, 2, 20⟩, 4⟩] []
    ⟨"Order", 5, 1, RecState.snap ⟨5, 1, 10⟩, 3⟩ rfl rfl rfl rfl).2

/-- Claim C2 counterexample: the id 5 is in the input set but has no rows at
all, and the result of `restore_many` is the empty dictionary — the id is
absent, not mapped to a default aggregate. -/
theorem claim_C2_counterexample :
    (5 ∈ ([5] : List Nat))
      ∧ restore_many OC ([] : List (EventRecord Int OEv)) [5] 10 = []
      ∧ dlookup (restore_many OC ([] : List (EventRecord Int OEv)) [5] 10) 5 = none :=
  ⟨by decide, rfl, rfl⟩

/-- Claim C2 (amended): the dictionary `restore_many` returns has
duplicate-free keys, and an id is a key exactly when it is an input id with
at least one qualifying SNAPSHOT or EVENT row at or before the bound; input
ids with no qualifying rows are missing from the result rather than mapped
to a default aggregate. -/
theorem claim_C2_amended (C : AggClass σ ε)
    (rows : List (EventRecord σ ε)) (ids : List Nat) (T oid : Nat) :
    (dkeys (restore_many C rows ids T)).Nodup
      ∧ ((dlookup (restore_many C rows ids T) oid).isSome = true
        ↔ oid ∈ ids
          ∧ ((∃ s ∈ snapRows C rows oid, s.timestamp ≤ T)
            ∨ ∃ r ∈ evRows C rows oid, r.timestamp ≤ T)) :=
  restore_many_key_characterization C rows ids T oid

/-- Claim C5: snapshot transparency — over any store obeying the
reachable-store discipline, `restore` with a version bound returns the same
aggregate whether or not one of the SNAPSHOT rows is removed, because the
selected snapshot always stands for the replay of the event rows before it. -/
theorem claim_C5 (C : AggClass σ ε) [DecidableEq σ] [DecidableEq ε]
    (pre post : List (EventRecord σ ε)) (s : EventRecord σ ε) (oid V : Nat)
    (hsnap : recIsSnap s = true)
    (hinv : oidInv C (pre ++ s :: post) oid = true) :
    restore C (pre ++ s :: post) oid (some V) none
      = restore C (pre ++ post) oid (some V) none := by
  have hse : evFilter C oid s = false := evFilter_eq_false_of_snap C oid s hsnap
  have hE : evRows C (pre ++ post) oid = evRows C (pre ++ s :: post) oid := by
    simp [evRows, List.filter_append, List.filter_cons, hse]
  rcases Nat.eq_zero_or_pos V with h0 | hpos
  · subst h0
    rw [restore_version_zero, restore_version_zero]
  · have hinv' := oidInv_remove_snap C pre post s oid hse hinv
    rw [restore_version_spec C _ oid V hinv hpos,
      restore_version_spec C _ oid V hinv' hpos, hE]

theorem claim_C5_witness :
    restore OC
        ([⟨"Order.OrderCreated", 5, 0, RecState.ev (OEv.created 0 100), 0⟩]
          ++ ⟨"Order", 5, 1, RecState.snap ⟨5, 1, 100⟩, 1⟩
            :: [⟨"Order.PaymentReceived", 5, 1, RecState.ev (OEv.payment 1 30), 2⟩])
        5 (some 2) none
      = restore OC
          ([⟨"Order.OrderCreated", 5, 0, RecState.ev (OEv.created 0 100), 0⟩]
            ++ [⟨"Order.PaymentReceived", 5, 1, RecState.ev (OEv.payment 1 30), 2⟩])
          5 (some 2) none :=
  claim_C5 OC
    [⟨"Order.OrderCreated", 5, 0, RecState.ev (OEv.created 0 100), 0⟩]
    [⟨"Order.PaymentReceived", 5, 1, RecState.ev (OEv.payment 1 30), 2⟩]
    ⟨"Order", 5, 1, RecState.snap ⟨5, 1, 100⟩, 1⟩ 5 2 (by decide) (by decide)

/-- Claim C6 counterexample: for an id with no rows, `restore` with a
timestamp bound returns a default-constructed aggregate while `restore_many`
omits the id from its dictionary, so the two calls disagree. -/
theorem claim_C6_counterexample :
    restore OC ([] : List (EventRecord Int OEv)) 5 none (some 0)
        = Except.ok (defaultAgg OC 5)
      ∧ dlookup (restore_many OC ([] : List (EventRecord Int OEv)) [5] 0) 5 = none
      ∧ dlookup (restore_many OC ([] : List (EventRecord Int OEv)) [5] 0) 5
          ≠ (restore OC ([] : List (EventRecord Int OEv)) 5 none (some 0)).toOption :=
  ⟨rfl, rfl, by decide⟩

/-- Claim C6 (amended): batch/single equivalence holds for every input id
that has at least one qualifying SNAPSHOT or EVENT row — for such an id over
a store obeying the reachable-store discipline,
`restore_many(ids, timestamp=T)[id]` is the aggregate `restore(id,
timestamp=T)` returns; ids with no qualifying rows are absent from the batch
result while the single call returns a default aggregate. -/
theorem claim_C6_amended (C : AggClass σ ε) [DecidableEq σ] [DecidableEq ε]
    (rows : List (EventRecord σ ε)) (ids : List Nat) (T oid : Nat)
    (hmem : oid ∈ ids) (hinv : oidInv C rows oid = true)
    (hqual : (∃ s ∈ snapRows C rows oid, s.timestamp ≤ T)
        ∨ ∃ r ∈ evRows C rows oid, r.timestamp ≤ T) :
    dlookup (restore_many C rows ids T) oid
      = (restore C rows oid none (some T)).toOption := by
  rw [restore_timestamp_spec C rows oid T hinv,
    restore_many_lookup_spec C rows ids T oid hmem hinv hqual]
  rfl

theorem claim_C6_amended_witness :
    dlookup (restore_many OC
        [⟨"Order.OrderCreated", 5, 0, RecState.ev (OEv.created 0 100), 0⟩] [5] 0) 5
      = (restore OC
          [⟨"Order.OrderCreated", 5, 0, RecState.ev (OEv.created 0 100), 0⟩]
          5 none (some 0)).toOption :=
  claim_C6_amended OC
    [⟨"Order.OrderCreated", 5, 0, RecState.ev (OEv.created 0 100), 0⟩] [5] 0 5
    (by decide) (by decide) (Or.inr (by decide))

/-- Claim C7: the spec says `restore(id, version=0)` on an id with no rows
returns a bare default-constructed aggregate and not an error; in the code
the guard `if version:` treats `0` as falsy, so the call falls through to the
timestamp filter with `timestamp=None`, which the query layer rejects — the
call raises instead of returning the default aggregate.  With any positive
version bound the same call does return the default aggregate, so the
divergence is exactly at `version=0`. -/
theorem claim_C7_failing :
    restore OC ([] : List (EventRecord Int OEv)) 5 (some 0) none
        = Except.error RestoreErr.noneQuery
      ∧ restore OC ([] : List (EventRecord Int OEv)) 5 (some 3) none
        = Except.ok (defaultAgg OC 5) :=
  ⟨rfl, rfl⟩

/-- Claim C9 counterexample: `snapshot` is subject to no uniqueness
constraint (the table's one constraint is scoped to EVENT rows), so
snapshotting the same aggregate twice at the same version yields a reachable
store holding two SNAPSHOT rows with the same
`(object_id, applied_to_version)` pair. -/
theorem claim_C9_counterexample :
    Reachable OC ⟨[⟨"Order", 5, 0, RecState.snap ⟨5, 0, 0⟩, 0⟩,
        ⟨"Order", 5, 0, RecState.snap ⟨5, 0, 0⟩, 1⟩], 2⟩
      ∧ recIsSnap (⟨"Order", 5, 0, RecState.snap ⟨5, 0, 0⟩, 0⟩ : EventRecord Int OEv)
          = true
      ∧ recIsSnap (⟨"Order", 5, 0, RecState.snap ⟨5, 0, 0⟩, 1⟩ : EventRecord Int OEv)
          = true :=
  ⟨Reachable.snapStepR true ⟨[⟨"Order", 5, 0, RecState.snap ⟨5, 0, 0⟩, 0⟩], 1⟩
      ⟨5, 0, 0⟩
      ⟨[⟨"Order", 5, 0, RecState.snap ⟨5, 0, 0⟩, 0⟩,
        ⟨"Order", 5, 0, RecState.snap ⟨5, 0, 0⟩, 1⟩], 2⟩
      (Reachable.snapStepR true ⟨[], 0⟩ ⟨5, 0, 0⟩
        ⟨[⟨"Order", 5, 0, RecState.snap ⟨5, 0, 0⟩, 0⟩], 1⟩ Reachable.init rfl) rfl,
    rfl, rfl⟩

/-- Claim C9 (amended): the store's uniqueness invariant covers EVENT rows
only — in every reachable store no two EVENT rows share
`(object_id, applied_to_version)`, enforced by the partial unique constraint
checked at `objects.create`; SNAPSHOT rows carry no such constraint, and a
second `snapshot()` of the same aggregate at the same version inserts a
duplicate SNAPSHOT row rather than being rejected. -/
theorem claim_C9_amended (C : AggClass σ ε) (st0 : Store σ ε)
    (h : Reachable C st0) : st0.rows.Pairwise EvKeyDistinct := by
  induction h with
  | init => exact List.Pairwise.nil
  | evStep inTx st a e st' a' hr htr ih =>
    obtain ⟨hrows, -, hchk, -⟩ := trigger_event_ok_spec C inTx st a e st' a' htr
    rw [hrows]
    refine List.pairwise_append.mpr ⟨ih, by simp, ?_⟩
    intro x hx y hy
    have hyrow : y = ⟨C.evName e, a.id, a.version, RecState.ev e, st.clock⟩ :=
      List.mem_singleton.mp hy
    intro hex _ hkeys
    obtain ⟨hoid, hver⟩ := hkeys
    rw [hyrow] at hoid hver
    have hp : (recIsEvent x && (x.object_id == a.id)
        && (x.applied_to_version == a.version)) = true :=
      bool_and_mk (bool_and_mk hex (beq_iff_eq.mpr hoid)) (beq_iff_eq.mpr hver)
    have hany : st.rows.any (fun r' => recIsEvent r' && (r'.object_id == a.id)
        && (r'.applied_to_version == a.version)) = true :=
      List.any_eq_true.mpr ⟨x, hx, hp⟩
    rw [hchk] at hany
    exact absurd hany (by decide)
  | snapStepR inTx st a st' hr hsn ih =>
    rw [snapshot_eq C inTx st a] at hsn
    have h' := Except.ok.inj hsn
    subst h'
    show (st.rows
        ++ [(⟨C.clsName, a.id, a.version, RecState.snap a, st.clock⟩
          : EventRecord σ ε)]).Pairwise EvKeyDistinct
    refine List.pairwise_append.mpr ⟨ih, by simp, ?_⟩
    intro x hx y hy
    have hyrow : y = ⟨C.clsName, a.id, a.version, RecState.snap a, st.clock⟩ :=
      List.mem_singleton.mp hy
    intro _ hey
    have hfalse : recIsEvent
        (⟨C.clsName, a.id, a.version, RecState.snap a, st.clock⟩
          : EventRecord σ ε) = false := rfl
    rw [hyrow, hfalse] at hey
    exact absurd hey (by decide)

theorem claim_C9_witness :
    List.Pairwise EvKeyDistinct
      [(⟨"Order.OrderCreated", 5, 0, RecState.ev (OEv.created 0 100), 0⟩
        : EventRecord Int OEv)] :=
  claim_C9_amended OC
    ⟨[⟨"Order.OrderCreated", 5, 0, RecState.ev (OEv.created 0 100), 0⟩], 1⟩
    (Reachable.evStep true ⟨[], 0⟩ ⟨5, 0, 0⟩ (OEv.created 0 100)
      ⟨[⟨"Order.OrderCreated", 5, 0, RecState.ev (OEv.created 0 100), 0⟩], 1⟩
      ⟨5, 1, 100⟩ Reachable.init rfl)

end Sourcery
